import Mathlib

/-!
# QuatBot: the meeting turn-taking state machine and the cookie ledger

A shallow embedding of `src/meeting.cpp` (class `QuatBot::Meeting`) and, further
down, of the ledger of `src/coffee.cpp` (class `Coffee::Private`).  The
member variables of the class become the fields of the structure `Meeting`,
every member function becomes a function from the state before the call to
the state after it, paired with the messages the call sends to the room.

* `QString` is `String`; an empty `QString` is `""`.
* `QStringList` / `QList<QString>` is `List String`.
* `QSet<QString>` is `Finset String`.
* The single-shot `QTimer m_waiting` is `Option Nat`: `none` when the timer
  is inactive, `some ms` when it has been started with an interval of `ms`
  milliseconds and has not fired or been stopped since.
* `Bot` collects what the meeting asks of `m_bot` (`quatbot.cpp` is not part
  of the sources at hand, so these are parameters).
-/

namespace QuatBot

/-! ## Data model -/

/-- The phase of the meeting, `enum class Meeting::State`. -/
inductive State where
  | None
  | RollCall
  | InProgress
  deriving DecidableEq, Repr

/-- The parsed command handed to `handleCommand`: the event id, the verb, its
arguments and the id of the user who sent it. -/
structure CommandArgs where
  id : String
  command : String
  args : List String
  user : String
  deriving DecidableEq, Repr

/-- The services of `Bot* m_bot` used by the meeting.  `checkOps` is the
operator check (the messages it may itself send to an unprivileged user are
not part of the meeting and are left out), `userLookup` resolves a command
argument to a user id and answers the empty string when it cannot,
`userIds` is the roster of the room, `hasLogWatcher` tells whether
`getWatcher("log")` finds a watcher, and `displayCommand` is the text of
`Watcher::displayCommand()`, the command of this module as a user types it. -/
structure Bot where
  checkOps : CommandArgs → Bool
  userLookup : String → String
  userIds : List String
  hasLogWatcher : Bool
  displayCommand : String

/-- What a call makes visible outside the meeting: a room message built from
one string (`message(QString)`), a room message built from a string list
(`message(QStringList)`), or the `on` / `off` command that `enableLogging`
passes to the log watcher. -/
inductive Output where
  | text (s : String)
  | list (l : List String)
  | logging (enable : Bool)
  deriving DecidableEq, Repr

/-- The member variables of `class Meeting`. -/
structure Meeting where
  m_state : State
  m_participants : List String
  m_participantsDone : Finset String
  m_breakouts : List String
  m_current : String
  m_chair : String
  m_waiting : Option Nat
  deriving DecidableEq

/-- The state built by the constructor `Meeting::Meeting`: phase `None`,
empty containers and strings, the timer not started. -/
def Meeting.init : Meeting :=
  { m_state := State.None
    m_participants := []
    m_participantsDone := ∅
    m_breakouts := []
    m_current := ""
    m_chair := ""
    m_waiting := none }

/-- The events the host event loop delivers to the meeting: a parsed
command, a chat message of a sender, and the expiry of the timer. -/
inductive Event where
  | command (cmd : CommandArgs)
  | message (sender : String)
  | timerExpiry
  deriving DecidableEq, Repr

/-! ## Operations -/

/-- The list method `QList::removeAll`: drops every occurrence of `x`. -/
def removeAll (l : List String) (x : String) : List String :=
  l.filter (fun y => decide (y ≠ x))

/-- The list method `QStringList::join(sep)`. -/
def join (sep : String) : List String → String
  | [] => ""
  | [a] => a
  | a :: b :: rest => a ++ sep ++ join sep (b :: rest)

/-- The method `Meeting::handleMessage`, applied to the sender id of the
message. -/
def handleMessage (s : Meeting) (sender : String) : Meeting :=
  let s1 : Meeting :=
    if s.m_state ≠ State.None ∧ sender ∉ s.m_participantsDone ∧ sender ∉ s.m_participants then
      { s with m_participants := removeAll (s.m_participants ++ [sender]) s.m_chair ++ [s.m_chair] }
    else s
  if s1.m_state = State.InProgress ∧ sender = s1.m_current then
    { s1 with m_waiting := none }
  else s1

/-- The method `Meeting::shortStatus`: one line naming the phase. -/
def shortStatus (s : Meeting) : List Output :=
  match s.m_state with
  | State.None => [Output.text "No meeting in progress."]
  | State.RollCall => [Output.text "Doing the rollcall."]
  | State.InProgress => [Output.text "Meeting in progress."]

/-- The method `Meeting::status`: the short status and, outside phase `None`, the
number of pending participants. -/
def status (s : Meeting) : List Output :=
  shortStatus s ++
    (if s.m_state ≠ State.None then
      [Output.text ("There are " ++ toString s.m_participants.length ++ " participants.")]
    else [])

/-- The method `Meeting::enableLogging`: when the sender of the command is an operator
and a log watcher exists, the log watcher is handed `on` or `off`. -/
def enableLogging (b : Bot) (cmd : CommandArgs) (enable : Bool) : List Output :=
  if b.checkOps cmd then
    (if b.hasLogWatcher then [Output.logging enable] else [])
  else []

/-- The method `Meeting::doNext`: a call outside phase `InProgress` only
reports; an empty queue ends the meeting; otherwise the head of the queue
becomes the current speaker, joins the done set, and the timer is started
with half a minute. -/
def doNext (s : Meeting) : Meeting × List Output :=
  if s.m_state ≠ State.InProgress then (s, shortStatus s)
  else
    match s.m_participants with
    | [] =>
      ({ s with m_state := State.None, m_waiting := none },
        shortStatus { s with m_state := State.None } ++
          s.m_breakouts.map (fun n => Output.text ("Breakout: " ++ n)))
    | h :: t =>
      ({ s with
          m_current := h
          m_participants := t
          m_participantsDone := insert h s.m_participantsDone
          m_waiting := some 30000 },
        [Output.text
          (match t with
           | [] => h ++ ", you\x27re up (after that, we\x27re done!)."
           | n :: _ => h ++ ", you\x27re up (after that, " ++ n ++ ").")])

/-- One round of the loop of the `skip` branch, for the argument `u`. -/
def skipArg (b : Bot) (acc : Meeting × List Output) (u : String) : Meeting × List Output :=
  let user := b.userLookup u
  if user ≠ "" then
    ({ acc.1 with
        m_participants := removeAll acc.1.m_participants user
        m_participantsDone := insert user acc.1.m_participantsDone },
      acc.2 ++ [Output.text ("User " ++ user ++ " will be skipped this meeting.")])
  else acc

/-- One round of the loop of the `bump` branch, for the argument `u`. -/
def bumpArg (b : Bot) (acc : Meeting × List Output) (u : String) : Meeting × List Output :=
  let user := b.userLookup u
  if user ≠ "" then
    ({ acc.1 with
        m_participants := user :: removeAll acc.1.m_participants user
        m_participantsDone := acc.1.m_participantsDone.erase user },
      acc.2 ++ [Output.text ("User " ++ user ++ " is up next.")])
  else acc

/-- The `rollcall` branch of `handleCommand`. -/
def cmdRollcall (b : Bot) (s : Meeting) (cmd : CommandArgs) : Meeting × List Output :=
  if s.m_state = State.None then
    let s1 : Meeting :=
      { s with
          m_state := State.RollCall
          m_breakouts := []
          m_participantsDone := ∅
          m_participants := [cmd.user]
          m_chair := cmd.user
          m_current := "" }
    ({ s1 with m_waiting := some 60000 },
      enableLogging b cmd true ++ shortStatus s1 ++
        [Output.list ("Hello @room, this is the roll-call!" :: b.userIds)])
  else (s, shortStatus s)

/-- The `next` branch of `handleCommand`. -/
def cmdNext (b : Bot) (s : Meeting) (cmd : CommandArgs) : Meeting × List Output :=
  if ¬ (s.m_state = State.RollCall ∨ s.m_state = State.InProgress) then (s, shortStatus s)
  else if cmd.user = s.m_chair ∨ b.checkOps cmd = true then
    let p : Meeting × List Output :=
      if s.m_state = State.RollCall then
        ({ s with m_state := State.InProgress, m_participantsDone := ∅ },
          status { s with m_state := State.InProgress })
      else (s, [])
    let r := doNext p.1
    (r.1, p.2 ++ r.2 ++
      (if r.1.m_state = State.None then enableLogging b cmd false else []))
  else (s, [])

/-- The `skip` branch of `handleCommand`. -/
def cmdSkip (b : Bot) (s : Meeting) (cmd : CommandArgs) : Meeting × List Output :=
  if ¬ (s.m_state = State.RollCall ∨ s.m_state = State.InProgress) then (s, shortStatus s)
  else if cmd.user = s.m_chair ∨ b.checkOps cmd = true then
    cmd.args.foldl (skipArg b) (s, [])
  else (s, [])

/-- The `bump` branch of `handleCommand`. -/
def cmdBump (b : Bot) (s : Meeting) (cmd : CommandArgs) : Meeting × List Output :=
  if ¬ (s.m_state = State.RollCall ∨ s.m_state = State.InProgress) then (s, shortStatus s)
  else if cmd.user = s.m_chair ∨ b.checkOps cmd = true then
    cmd.args.foldl (bumpArg b) (s, [])
  else (s, [])

/-- The `breakout` branch of `handleCommand`. -/
def cmdBreakout (s : Meeting) (cmd : CommandArgs) : Meeting × List Output :=
  if ¬ (s.m_state = State.InProgress) then (s, shortStatus s)
  else
    ({ s with m_breakouts := s.m_breakouts ++ [join " " cmd.args] },
      [Output.text ("Registered breakout \x27" ++ join " " cmd.args ++ "\x27.")])

/-- The `done` branch of `handleCommand`. -/
def cmdDone (b : Bot) (s : Meeting) (cmd : CommandArgs) : Meeting × List Output :=
  if b.checkOps cmd then
    ({ s with m_state := State.None, m_waiting := none },
      [Output.text "The meeting has been forcefully ended."])
  else (s, [])

/-- The method `Meeting::handleCommand`: the dispatch on the verb. -/
def handleCommand (b : Bot) (s : Meeting) (cmd : CommandArgs) : Meeting × List Output :=
  if cmd.command = "status" then (s, status s)
  else if cmd.command = "rollcall" then cmdRollcall b s cmd
  else if cmd.command = "next" then cmdNext b s cmd
  else if cmd.command = "skip" then cmdSkip b s cmd
  else if cmd.command = "bump" then cmdBump b s cmd
  else if cmd.command = "breakout" then cmdBreakout s cmd
  else if cmd.command = "done" then cmdDone b s cmd
  else
    (s, [Output.text
      ("Usage: " ++ b.displayCommand ++ " <status|rollcall|next|breakout|skip|bump|done>")])

/-- The method `Meeting::timeout`: the reminder sent when the timer fires. -/
def timeout (b : Bot) (s : Meeting) : List Output :=
  match s.m_state with
  | State.RollCall =>
    let noResponse : List String :=
      "Roll-call for" ::
        b.userIds.filter (fun u => decide (u ∉ s.m_participants ∧ u ∉ s.m_participantsDone))
    if noResponse.length > 1 then [Output.list noResponse] else []
  | State.InProgress => [Output.list [s.m_current, "are you with us?"]]
  | State.None => []

/-- One event of the host event loop.  The timer is single-shot: it fires
only while it is started, and having fired it is inactive. -/
def step (b : Bot) (s : Meeting) : Event → Meeting × List Output
  | Event.command cmd => handleCommand b s cmd
  | Event.message sender => (handleMessage s sender, [])
  | Event.timerExpiry =>
    match s.m_waiting with
    | none => (s, [])
    | some _ => ({ s with m_waiting := none }, timeout b { s with m_waiting := none })

/-- The state after a sequence of events, served by one and the same bot. -/
def run (b : Bot) (s : Meeting) (es : List Event) : Meeting :=
  es.foldl (fun acc e => (step b acc e).1) s

/-- The states an event sequence leads to from the state `s0`.  The bot
(operators, roster, name resolution) may differ from event to event.  The
predicate `ok` tells which events are allowed to happen in which state. -/
inductive ReachableFromBy (ok : Bot → Meeting → Event → Prop) (s0 : Meeting) :
    Meeting → Prop where
  | start : ReachableFromBy ok s0 s0
  | step (b : Bot) (s : Meeting) (e : Event) :
      ReachableFromBy ok s0 s → ok b s e → ReachableFromBy ok s0 (step b s e).1

/-- The states the meeting can be in when only the events allowed by `ok`
happen: the constructed state and every state such an event leads to. -/
def ReachableBy (ok : Bot → Meeting → Event → Prop) (s : Meeting) : Prop :=
  ReachableFromBy ok Meeting.init s

/-- Reachability under every sequence of events. -/
def Reachable (s : Meeting) : Prop :=
  ReachableBy (fun _ _ _ => True) s

/-- The requester of `cmd` may use `next`, `skip` and `bump` in state `s`:
it is the chair or it passes the operator check. -/
@[reducible] def authorized (b : Bot) (s : Meeting) (cmd : CommandArgs) : Prop :=
  cmd.user = s.m_chair ∨ b.checkOps cmd = true

/-- The argument `u` of a `skip` or `bump` command resolves to the user
`user`: the lookup answers `user`, and `user` is not the empty string that
stands for a failed lookup. -/
@[reducible] def resolvesTo (b : Bot) (u user : String) : Prop :=
  b.userLookup u = user ∧ user ≠ ""

/-- Event restriction: a `bump` command has no argument that resolves to
the chair of the state it arrives in. -/
def noChairBump (b : Bot) (s : Meeting) : Event → Prop
  | Event.command cmd =>
    cmd.command = "bump" → ∀ u ∈ cmd.args, ¬ resolvesTo b u s.m_chair
  | Event.message _ => True
  | Event.timerExpiry => True

instance decNoChairBump (b : Bot) (s : Meeting) (e : Event) : Decidable (noChairBump b s e) :=
  match e with
  | Event.command cmd =>
    inferInstanceAs
      (Decidable (cmd.command = "bump" → ∀ u ∈ cmd.args, ¬ resolvesTo b u s.m_chair))
  | Event.message _ => inferInstanceAs (Decidable True)
  | Event.timerExpiry => inferInstanceAs (Decidable True)

/-- Event restriction: no `done` command comes from an operator. -/
def noForcedEnd (b : Bot) (_s : Meeting) : Event → Prop
  | Event.command cmd => cmd.command = "done" → b.checkOps cmd = false
  | Event.message _ => True
  | Event.timerExpiry => True

instance decNoForcedEnd (b : Bot) (s : Meeting) (e : Event) : Decidable (noForcedEnd b s e) :=
  match e with
  | Event.command cmd =>
    inferInstanceAs (Decidable (cmd.command = "done" → b.checkOps cmd = false))
  | Event.message _ => inferInstanceAs (Decidable True)
  | Event.timerExpiry => inferInstanceAs (Decidable True)

/-- The event is not a `bump` command with an argument that resolves to
`user`. -/
def noBumpOf (user : String) (b : Bot) : Event → Prop
  | Event.command cmd => cmd.command = "bump" → ∀ u ∈ cmd.args, ¬ resolvesTo b u user
  | Event.message _ => True
  | Event.timerExpiry => True

instance decNoBumpOf (user : String) (b : Bot) (e : Event) : Decidable (noBumpOf user b e) :=
  match e with
  | Event.command cmd =>
    inferInstanceAs (Decidable (cmd.command = "bump" → ∀ u ∈ cmd.args, ¬ resolvesTo b u user))
  | Event.message _ => inferInstanceAs (Decidable True)
  | Event.timerExpiry => inferInstanceAs (Decidable True)

/-- Event restriction: the event arrives while the meeting is still running
(the phase has not returned to `None`), and it is not a `bump` of `user`. -/
@[reducible] def runningWithoutBumpOf (user : String) (b : Bot) (s : Meeting) (e : Event) :
    Prop :=
  s.m_state ≠ State.None ∧ noBumpOf user b e

/-- Every event of the run `es`, served by the bot `b` from the state `s`
on, is allowed by `ok` in the state it arrives in. -/
def AllowedRun (ok : Bot → Meeting → Event → Prop) (b : Bot) : Meeting → List Event → Prop
  | _, [] => True
  | s, e :: es => ok b s e ∧ AllowedRun ok b (step b s e).1 es

/-- The property `AllowedRun` can be computed when `ok` can. -/
def decAllowedRun (ok : Bot → Meeting → Event → Prop)
    (dec : ∀ b s e, Decidable (ok b s e)) (b : Bot) :
    ∀ (s : Meeting) (es : List Event), Decidable (AllowedRun ok b s es)
  | _, [] => isTrue trivial
  | s, e :: es =>
    @instDecidableAnd _ _ (dec b s e) (decAllowedRun ok dec b (step b s e).1 es)

instance instDecidableAllowedRun (ok : Bot → Meeting → Event → Prop)
    [dec : ∀ b s e, Decidable (ok b s e)] (b : Bot) (s : Meeting) (es : List Event) :
    Decidable (AllowedRun ok b s es) :=
  decAllowedRun ok dec b s es

/-- The chair is nowhere in the queue `p` except as its last element. -/
def ChairLast (p : List String) (chair : String) : Prop :=
  chair ∈ p → ∃ front, p = front ++ [chair] ∧ chair ∉ front

/-! ## Concrete actors used in the examples -/

/-- A room with alice, bob and carol, where `op` is the only operator and a
name resolves when it is one of the three users. -/
def roomBot : Bot :=
  { checkOps := fun cmd => decide (cmd.user = "op")
    userLookup := fun u => if u ∈ ["alice", "bob", "carol"] then u else ""
    userIds := ["alice", "bob", "carol"]
    hasLogWatcher := true
    displayCommand := "~meeting" }

/-- The command `verb args` sent by `user`. -/
def cmdOf (user verb : String) (args : List String) : CommandArgs :=
  { id := "", command := verb, args := args, user := user }

/-- The event that delivers the command `verb args` sent by `user`. -/
def mkCmd (user verb : String) (args : List String) : Event :=
  Event.command (cmdOf user verb args)

/-- The pending queue holds no identity twice, and no identity other than
the chair is both pending and done. -/
def DisjointButChair (s : Meeting) : Prop :=
  s.m_participants.Nodup ∧
    ∀ u ∈ s.m_participants, u ∈ s.m_participantsDone → u = s.m_chair

/-- What holds of a user skipped during the turns, as long as the meeting
goes on and the user is not bumped: the user is not pending, the phase has
not gone back to `RollCall`, and while the turns go on the user is in the
done set and is not the chair. -/
def SkippedOut (user : String) (s : Meeting) : Prop :=
  user ∉ s.m_participants ∧ s.m_state ≠ State.RollCall ∧
    (s.m_state = State.InProgress → user ∈ s.m_participantsDone ∧ user ≠ s.m_chair)

/-- Example state: alice has called the roll and bob has answered. -/
def rollCalled : Meeting :=
  run roomBot Meeting.init [mkCmd "alice" "rollcall" [], Event.message "bob"]

/-- Example state: alice has called the roll, bob has answered, alice has
given the first turn (to bob) and has registered a breakout. -/
def midMeeting : Meeting :=
  run roomBot Meeting.init
    [mkCmd "alice" "rollcall" [], Event.message "bob", mkCmd "alice" "next" [],
      mkCmd "alice" "breakout" ["budget", "talk"]]

/-- Example state: the meeting of `midMeeting` after two more `next`
commands of alice, the second of which has ended it. -/
def endedByNext : Meeting :=
  run roomBot midMeeting [mkCmd "alice" "next" [], mkCmd "alice" "next" []]

/-- Example state: the meeting of `midMeeting` after the operator has ended
it with `done`. -/
def endedByDone : Meeting :=
  run roomBot midMeeting [mkCmd "op" "done" []]

/-- Example state: alice has called the roll, bob and carol have answered,
and alice has given the first turn (to bob). -/
def threeInTurns : Meeting :=
  run roomBot Meeting.init
    [mkCmd "alice" "rollcall" [], Event.message "bob", Event.message "carol",
      mkCmd "alice" "next" []]

/-- Example state: alice has called the roll and has taken the only turn
herself; then bob has written a message. -/
def chairSpokeThenBob : Meeting :=
  run roomBot Meeting.init
    [mkCmd "alice" "rollcall" [], mkCmd "alice" "next" [], Event.message "bob"]

/-- Example state: during the roll call of `rollCalled` alice has skipped
bob and has then started the turns; after that bob has written a message. -/
def skippedInRollCall : Meeting :=
  run roomBot (handleCommand roomBot rollCalled (cmdOf "alice" "skip" ["bob"])).1
    [mkCmd "alice" "next" [], Event.message "bob"]

/-- Example state: in `midMeeting` alice, the chair, has skipped herself;
after that carol has written a message and alice has given carol the turn. -/
def chairSkipped : Meeting :=
  run roomBot (handleCommand roomBot midMeeting (cmdOf "alice" "skip" ["alice"])).1
    [Event.message "carol", mkCmd "alice" "next" []]

/-- Example state: in `threeInTurns` alice has skipped carol; after that
carol has written a message and alice has given the next turn. -/
def carolSkipped : Meeting :=
  run roomBot (handleCommand roomBot threeInTurns (cmdOf "alice" "skip" ["carol"])).1
    [Event.message "carol", mkCmd "alice" "next" []]

/-- The users the arguments of a `skip` or `bump` command resolve to, in the
order of the arguments; an argument whose lookup answers the empty string
resolves to nobody. -/
def resolved (b : Bot) (args : List String) : List String :=
  (args.map b.userLookup).filter (fun u => decide (u ≠ ""))

/-- The announcement the `skip` branch sends for the user `user`. -/
def skipNotice (user : String) : Output :=
  Output.text ("User " ++ user ++ " will be skipped this meeting.")

/-- The present users that have not answered the roll call: the roster
without the pending and the done, in roster order. -/
def absentees (b : Bot) (s : Meeting) : List String :=
  b.userIds.filter (fun u => decide (u ∉ s.m_participants ∧ u ∉ s.m_participantsDone))

/-- Event restriction: a `bump` command has no argument that resolves to
the current speaker of the state it arrives in. -/
def noCurrentBump (b : Bot) (s : Meeting) : Event → Prop
  | Event.command cmd =>
    cmd.command = "bump" → ∀ u ∈ cmd.args, ¬ resolvesTo b u s.m_current
  | Event.message _ => True
  | Event.timerExpiry => True

instance decNoCurrentBump (b : Bot) (s : Meeting) (e : Event) :
    Decidable (noCurrentBump b s e) :=
  match e with
  | Event.command cmd =>
    inferInstanceAs
      (Decidable (cmd.command = "bump" → ∀ u ∈ cmd.args, ¬ resolvesTo b u s.m_current))
  | Event.message _ => inferInstanceAs (Decidable True)
  | Event.timerExpiry => inferInstanceAs (Decidable True)

/-- During the roll call nobody is the current speaker, and during the turns
the current speaker is in the done set. -/
def CurrentHeard (s : Meeting) : Prop :=
  (s.m_state = State.RollCall → s.m_current = "") ∧
    (s.m_state = State.InProgress → s.m_current ∈ s.m_participantsDone)

/-- Example state: in `threeInTurns`, where bob is the current speaker,
alice has bumped bob. -/
def currentBumped : Meeting :=
  run roomBot threeInTurns [mkCmd "alice" "bump" ["bob"]]

/-! ## The cookie ledger (`src/coffee.cpp`)

The class `Coffee::Private` keeps the cookie jar and, per user, the counters
of `CoffeeStats`.  `QMap<QString, CoffeeStats>` is an association list with
unique keys (the order of the entries is not observed by the operations
below).  The jar and the counters are C++ `int`: 32 bits with a sign,
here an integer between -2147483648 and 2147483647; `++` and `--` wrap around
at the ends of this range, as they do in the running program.  Saving to and
loading from the file system is not modelled; `loadEntry` is what the loading
loops do with one record they have read. -/

/-- The C++ type `int` (and `qint32`): an integer of 32 bits. -/
structure CInt where
  val : Int
  lo : -2147483648 ≤ val
  hi : val ≤ 2147483647
  deriving DecidableEq, Repr

/-- The value of 32 bits that stands for the integer `x`: `x` itself when it
is in the range of `int`, and `x` moved by a multiple of 4294967296 into this
range otherwise. -/
def CInt.wrap (x : Int) : Int :=
  (x + 2147483648) % 4294967296 - 2147483648

/-- The `int` with the bits of the integer `x`. -/
def CInt.ofInt (x : Int) : CInt :=
  { val := CInt.wrap x
    lo := by unfold CInt.wrap; omega
    hi := by unfold CInt.wrap; omega }

/-- The `int` 0. -/
def CInt.zero : CInt :=
  { val := 0, lo := by decide, hi := by decide }

/-- The operator `++` on an `int`. -/
def CInt.succ (c : CInt) : CInt :=
  CInt.ofInt (c.val + 1)

/-- The operator `--` on an `int`. -/
def CInt.pred (c : CInt) : CInt :=
  CInt.ofInt (c.val - 1)

/-- The counters of one user, `class CoffeeStats`. -/
structure CoffeeStats where
  m_user : String
  m_coffee : CInt
  m_tea : CInt
  m_cookie : CInt
  m_cookieEated : CInt
  deriving DecidableEq, Repr

/-- The constructor `CoffeeStats(const QString& u)`: all counters zero. -/
def CoffeeStats.new (u : String) : CoffeeStats :=
  { m_user := u
    m_coffee := CInt.zero
    m_tea := CInt.zero
    m_cookie := CInt.zero
    m_cookieEated := CInt.zero }

namespace Coffee

/-- The member variables of `class Coffee::Private` that the operations
work on: the cookie jar and the per-user counters. -/
structure Private where
  m_cookiejar : CInt
  m_stats : AList (fun _ : String => CoffeeStats)

instance Private.decEq : DecidableEq Private := fun p q =>
  match p, q with
  | ⟨j1, s1⟩, ⟨j2, s2⟩ =>
    if hj : j1 = j2 then
      if hs : s1.entries = s2.entries then
        isTrue (by rw [hj, AList.ext hs])
      else isFalse (fun h => hs (by cases h; rfl))
    else isFalse (fun h => hj (by cases h; rfl))

/-- The ledger of a new `Coffee::Private` before anything is loaded: a dozen
cookies in the jar and no user. -/
def Private.init : Private :=
  { m_cookiejar := CInt.ofInt 12, m_stats := ∅ }

/-- The counters `find` answers for `user`: the entry of the user, or fresh
counters when the user has no entry. -/
def Private.statsOf (p : Private) (user : String) : CoffeeStats :=
  (p.m_stats.lookup user).getD (CoffeeStats.new user)

/-- The method `Coffee::Private::find`: makes sure `user` has an entry and
answers it.  The C++ method answers a reference into the map; here it answers
the ledger with the entry in place, and the entry. -/
def Private.find (p : Private) (user : String) : Private × CoffeeStats :=
  match p.m_stats.lookup user with
  | some c => (p, c)
  | none =>
    ({ p with m_stats := p.m_stats.insert user (CoffeeStats.new user) },
      CoffeeStats.new user)

/-- Writing counters through the reference that `find` answered for
`user`. -/
def Private.put (p : Private) (user : String) (c : CoffeeStats) : Private :=
  { p with m_stats := p.m_stats.insert user c }

/-- The method `Coffee::Private::coffee`: one more coffee for `user`; answers
the new count. -/
def Private.coffee (p : Private) (user : String) : Private × CInt :=
  let r := p.find user
  (r.1.put user { r.2 with m_coffee := r.2.m_coffee.succ }, r.2.m_coffee.succ)

/-- The method `Coffee::Private::tea`: one more tea for `user`; answers the
new count. -/
def Private.tea (p : Private) (user : String) : Private × CInt :=
  let r := p.find user
  (r.1.put user { r.2 with m_tea := r.2.m_tea.succ }, r.2.m_tea.succ)

/-- The method `Coffee::Private::giveCookie`: a cookie from the jar for
`user`; answers whether there was one. -/
def Private.giveCookie (p : Private) (user : String) : Private × Bool :=
  if p.m_cookiejar.val > 0 then
    let r := p.find user
    ({ r.1 with m_cookiejar := r.1.m_cookiejar.pred }.put user
        { r.2 with m_cookie := r.2.m_cookie.succ },
      true)
  else (p, false)

/-- The method `Coffee::Private::transferCookie`: one of the cookies of
`user` for `other`; answers whether that worked. -/
def Private.transferCookie (p : Private) (user other : String) : Private × Bool :=
  let ru := p.find user
  let ro := ru.1.find other
  if ru.2.m_user = ro.2.m_user then (ro.1, true)
  else if ru.2.m_cookie.val > 0 then
    ((ro.1.put user { ru.2 with m_cookie := ru.2.m_cookie.pred }).put other
        { ro.2 with m_cookie := ro.2.m_cookie.succ },
      true)
  else (ro.1, false)

/-- The method `Coffee::Private::eatCookie`: `user` eats one of the cookies
held; answers whether there was one. -/
def Private.eatCookie (p : Private) (user : String) : Private × Bool :=
  let r := p.find user
  if r.2.m_cookie.val > 0 then
    (r.1.put user
        { r.2 with m_cookie := r.2.m_cookie.pred, m_cookieEated := r.2.m_cookieEated.succ },
      true)
  else (r.1, false)

/-- The method `Coffee::Private::addCookie`, called by the refill timer: one
more cookie in the jar unless it holds a dozen. -/
def Private.addCookie (p : Private) : Private :=
  if p.m_cookiejar.val < 12 then { p with m_cookiejar := p.m_cookiejar.succ } else p

/-- One round of the loop of `loadV2` (and of `loadV1`, where `tea` is 0):
the counters read from the save file, each a `qint32`, replace those of
`user`. -/
def Private.loadEntry (p : Private) (user : String) (coffee tea cookie eated : CInt) :
    Private :=
  let r := p.find user
  r.1.put user
    { r.2 with m_coffee := coffee, m_tea := tea, m_cookie := cookie, m_cookieEated := eated }

/-- The calls that change a ledger. -/
inductive Op where
  | coffee (user : String)
  | tea (user : String)
  | giveCookie (user : String)
  | transferCookie (user other : String)
  | eatCookie (user : String)
  | addCookie
  | loadEntry (user : String) (coffee tea cookie eated : CInt)
  deriving DecidableEq, Repr

/-- The ledger after one call. -/
def Private.apply (p : Private) : Op → Private
  | Op.coffee user => (p.coffee user).1
  | Op.tea user => (p.tea user).1
  | Op.giveCookie user => (p.giveCookie user).1
  | Op.transferCookie user other => (p.transferCookie user other).1
  | Op.eatCookie user => (p.eatCookie user).1
  | Op.addCookie => p.addCookie
  | Op.loadEntry user coffee tea cookie eated => p.loadEntry user coffee tea cookie eated

/-- The ledger after a sequence of calls. -/
def Private.applyAll (p : Private) (ops : List Op) : Private :=
  ops.foldl Private.apply p

/-- The ledgers the program can build: the new ledger and every ledger a
call leads to from such a ledger. -/
inductive Private.Reachable : Private → Prop where
  | init : Private.Reachable Private.init
  | step (p : Private) (op : Op) : Private.Reachable p → Private.Reachable (p.apply op)

/-- Every entry of the ledger carries the user it is filed under. -/
def Private.WellKeyed (p : Private) : Prop :=
  ∀ e ∈ p.m_stats.entries, e.2.m_user = e.1

instance Private.decWellKeyed (p : Private) : Decidable p.WellKeyed :=
  inferInstanceAs (Decidable (∀ e ∈ p.m_stats.entries, e.2.m_user = e.1))

/-- Example ledger: alice has taken two cookies from the jar and has given
one of them to bob. -/
def twoCookies : Private :=
  Private.applyAll Private.init
    [Op.giveCookie "alice", Op.giveCookie "alice", Op.transferCookie "alice" "bob"]

/-- Example ledger: the jar is empty, alice holds a cookie. -/
def emptyJar : Private :=
  { m_cookiejar := CInt.zero
    m_stats := (∅ : AList (fun _ : String => CoffeeStats)).insert "alice"
      { m_user := "alice", m_coffee := CInt.zero, m_tea := CInt.zero,
        m_cookie := CInt.ofInt 1, m_cookieEated := CInt.zero } }

/-- Example ledger: the save file gave alice 2147483647 cookies, the largest
`int`; the jar holds its dozen. -/
def fullHands : Private :=
  Private.applyAll Private.init
    [Op.loadEntry "alice" CInt.zero CInt.zero (CInt.ofInt 2147483647) CInt.zero]

/-- Example ledger: the save file gave bob 2147483647 cookies, and alice has
taken one cookie from the jar. -/
def richBob : Private :=
  Private.applyAll Private.init
    [Op.loadEntry "bob" CInt.zero CInt.zero (CInt.ofInt 2147483647) CInt.zero,
      Op.giveCookie "alice"]

/-- Example ledger: the save file says that alice holds one cookie and has
eaten 2147483647. -/
def bigEater : Private :=
  Private.applyAll Private.init
    [Op.loadEntry "alice" CInt.zero CInt.zero (CInt.ofInt 1) (CInt.ofInt 2147483647)]

end Coffee

namespace Coffee

/-- The sum of the counter `f` over all users of the ledger. -/
def Private.sumOf (f : CoffeeStats → Int) (p : Private) : Int :=
  (p.m_stats.entries.map (fun e => f e.2)).sum

/-- The cookies held by the users, all together. -/
def Private.held (p : Private) : Int :=
  p.sumOf (fun c => c.m_cookie.val)

/-- The cookies eaten by the users, all together. -/
def Private.eaten (p : Private) : Int :=
  p.sumOf (fun c => c.m_cookieEated.val)

/-- The cookies in the jar, held and eaten, all together. -/
def Private.total (p : Private) : Int :=
  p.m_cookiejar.val + p.held + p.eaten

end Coffee

/-! ## Further notions for the meeting -/

/-- The announcement the `bump` branch sends for the user `user`. -/
def bumpNotice (user : String) : Output :=
  Output.text ("User " ++ user ++ " is up next.")

/-- The queue after the rounds of the `bump` loop for the users `users`, in
this order, starting from the queue `q`: each round takes the user out of the
queue and puts it at the front. -/
def bumpQueue (q : List String) (users : List String) : List String :=
  users.foldl (fun acc u => u :: removeAll acc u) q

/-- The front the `bump` loop builds for the users `users`: the rounds of the
loop on an empty queue. -/
def bumpOrder (users : List String) : List String :=
  bumpQueue [] users

/-- The breakout notes registered since the last effective rollcall, after
the event `e` arrives in state `s`, given the notes `notes` registered before
it: a `rollcall` received in phase `None` starts with no note, a `breakout`
received in phase `InProgress` registers its note after the earlier ones, and
every other event registers nothing.  This list is kept beside the state and
is not read by the code. -/
def notesAfter (s : Meeting) (notes : List String) : Event → List String
  | Event.command cmd =>
    if cmd.command = "rollcall" ∧ s.m_state = State.None then []
    else if cmd.command = "breakout" ∧ s.m_state = State.InProgress then
      notes ++ [join " " cmd.args]
    else notes
  | Event.message _ => notes
  | Event.timerExpiry => notes

/-- The reachable states, each with the breakout notes registered since the
last effective rollcall on the way to it. -/
inductive ReachableWithNotes : Meeting → List String → Prop where
  | init : ReachableWithNotes Meeting.init []
  | step (b : Bot) (s : Meeting) (e : Event) (notes : List String) :
      ReachableWithNotes s notes → ReachableWithNotes (step b s e).1 (notesAfter s notes e)

/-- The state after a sequence of events together with the breakout notes
registered since the last effective rollcall. -/
def runWithNotes (b : Bot) (sn : Meeting × List String) (es : List Event) :
    Meeting × List String :=
  es.foldl (fun acc e => ((step b acc.1 e).1, notesAfter acc.1 acc.2 e)) sn

/-- Example run: a first meeting of alice with the breakout `old topic`,
ended by `next`; then a meeting called by bob, in which bob has had his turn
and two breakouts have been registered. -/
def secondMeeting : Meeting × List String :=
  runWithNotes roomBot (Meeting.init, [])
    [mkCmd "alice" "rollcall" [], mkCmd "alice" "next" [],
      mkCmd "alice" "breakout" ["old", "topic"], mkCmd "alice" "next" [],
      mkCmd "bob" "rollcall" [], mkCmd "bob" "next" [],
      mkCmd "carol" "breakout" ["budget"], mkCmd "bob" "breakout" ["room", "two"]]

/-! ## The dispatch of `handleCommand` -/

theorem handleCommand_rollcall (b : Bot) (s : Meeting) (cmd : CommandArgs)
    (h : cmd.command = "rollcall") : handleCommand b s cmd = cmdRollcall b s cmd := by
  simp [handleCommand, h]

theorem handleCommand_next (b : Bot) (s : Meeting) (cmd : CommandArgs)
    (h : cmd.command = "next") : handleCommand b s cmd = cmdNext b s cmd := by
  simp [handleCommand, h]

theorem handleCommand_skip (b : Bot) (s : Meeting) (cmd : CommandArgs)
    (h : cmd.command = "skip") : handleCommand b s cmd = cmdSkip b s cmd := by
  simp [handleCommand, h]

theorem handleCommand_bump (b : Bot) (s : Meeting) (cmd : CommandArgs)
    (h : cmd.command = "bump") : handleCommand b s cmd = cmdBump b s cmd := by
  simp [handleCommand, h]

theorem handleCommand_breakout (b : Bot) (s : Meeting) (cmd : CommandArgs)
    (h : cmd.command = "breakout") : handleCommand b s cmd = cmdBreakout s cmd := by
  simp [handleCommand, h]

theorem handleCommand_done (b : Bot) (s : Meeting) (cmd : CommandArgs)
    (h : cmd.command = "done") : handleCommand b s cmd = cmdDone b s cmd := by
  simp [handleCommand, h]

/-- A property of the state after `handleCommand` follows from the same
property of the state after each of the six branches that can change the
state, and of the unchanged state for `status` and for an unknown verb. -/
theorem handleCommand_state_cases (P : Meeting → Prop) (b : Bot) (s : Meeting)
    (cmd : CommandArgs)
    (hsame : P s)
    (hroll : cmd.command = "rollcall" → P (cmdRollcall b s cmd).1)
    (hnext : cmd.command = "next" → P (cmdNext b s cmd).1)
    (hskip : cmd.command = "skip" → P (cmdSkip b s cmd).1)
    (hbump : cmd.command = "bump" → P (cmdBump b s cmd).1)
    (hbreak : cmd.command = "breakout" → P (cmdBreakout s cmd).1)
    (hdone : cmd.command = "done" → P (cmdDone b s cmd).1) :
    P (handleCommand b s cmd).1 := by
  unfold handleCommand
  split_ifs with h1 h2 h3 h4 h5 h6 h7
  · exact hsame
  · exact hroll h2
  · exact hnext h3
  · exact hskip h4
  · exact hbump h5
  · exact hbreak h6
  · exact hdone h7
  · exact hsame


/-! ## Loops -/

/-- A property that holds before a loop and is kept by every round holds
after the loop. -/
theorem foldl_preserves {α β : Type} (f : α → β → α) (P : α → Prop) :
    ∀ (l : List β) (a : α), P a → (∀ a x, x ∈ l → P a → P (f a x)) → P (l.foldl f a) := by
  intro l
  induction l with
  | nil => intro a ha _; exact ha
  | cons x xs ih =>
    intro a ha hstep
    exact ih (f a x) (hstep a x (List.mem_cons_self _ _) ha)
      (fun a y hy => hstep a y (List.mem_cons_of_mem _ hy))

/-- A round of the `skip` loop changes the pending queue and the done set
only. -/
theorem skipArg_frame (b : Bot) (acc : Meeting × List Output) (u : String) :
    (skipArg b acc u).1.m_state = acc.1.m_state ∧
    (skipArg b acc u).1.m_chair = acc.1.m_chair ∧
    (skipArg b acc u).1.m_current = acc.1.m_current ∧
    (skipArg b acc u).1.m_breakouts = acc.1.m_breakouts ∧
    (skipArg b acc u).1.m_waiting = acc.1.m_waiting := by
  by_cases h : b.userLookup u = "" <;> simp [skipArg, h]

/-- A round of the `bump` loop changes the pending queue and the done set
only. -/
theorem bumpArg_frame (b : Bot) (acc : Meeting × List Output) (u : String) :
    (bumpArg b acc u).1.m_state = acc.1.m_state ∧
    (bumpArg b acc u).1.m_chair = acc.1.m_chair ∧
    (bumpArg b acc u).1.m_current = acc.1.m_current ∧
    (bumpArg b acc u).1.m_breakouts = acc.1.m_breakouts ∧
    (bumpArg b acc u).1.m_waiting = acc.1.m_waiting := by
  by_cases h : b.userLookup u = "" <;> simp [bumpArg, h]

/-- The `skip` loop changes the pending queue and the done set only. -/
theorem skipLoop_frame (b : Bot) (args : List String) (acc : Meeting × List Output) :
    (args.foldl (skipArg b) acc).1.m_state = acc.1.m_state ∧
    (args.foldl (skipArg b) acc).1.m_chair = acc.1.m_chair ∧
    (args.foldl (skipArg b) acc).1.m_current = acc.1.m_current ∧
    (args.foldl (skipArg b) acc).1.m_breakouts = acc.1.m_breakouts ∧
    (args.foldl (skipArg b) acc).1.m_waiting = acc.1.m_waiting := by
  refine foldl_preserves (skipArg b)
    (fun r => r.1.m_state = acc.1.m_state ∧ r.1.m_chair = acc.1.m_chair ∧
      r.1.m_current = acc.1.m_current ∧ r.1.m_breakouts = acc.1.m_breakouts ∧
      r.1.m_waiting = acc.1.m_waiting) args acc ⟨rfl, rfl, rfl, rfl, rfl⟩ ?_
  intro a x _ ha
  obtain ⟨h1, h2, h3, h4, h5⟩ := skipArg_frame b a x
  exact ⟨h1.trans ha.1, h2.trans ha.2.1, h3.trans ha.2.2.1, h4.trans ha.2.2.2.1,
    h5.trans ha.2.2.2.2⟩

/-- The `bump` loop changes the pending queue and the done set only. -/
theorem bumpLoop_frame (b : Bot) (args : List String) (acc : Meeting × List Output) :
    (args.foldl (bumpArg b) acc).1.m_state = acc.1.m_state ∧
    (args.foldl (bumpArg b) acc).1.m_chair = acc.1.m_chair ∧
    (args.foldl (bumpArg b) acc).1.m_current = acc.1.m_current ∧
    (args.foldl (bumpArg b) acc).1.m_breakouts = acc.1.m_breakouts ∧
    (args.foldl (bumpArg b) acc).1.m_waiting = acc.1.m_waiting := by
  refine foldl_preserves (bumpArg b)
    (fun r => r.1.m_state = acc.1.m_state ∧ r.1.m_chair = acc.1.m_chair ∧
      r.1.m_current = acc.1.m_current ∧ r.1.m_breakouts = acc.1.m_breakouts ∧
      r.1.m_waiting = acc.1.m_waiting) args acc ⟨rfl, rfl, rfl, rfl, rfl⟩ ?_
  intro a x _ ha
  obtain ⟨h1, h2, h3, h4, h5⟩ := bumpArg_frame b a x
  exact ⟨h1.trans ha.1, h2.trans ha.2.1, h3.trans ha.2.2.1, h4.trans ha.2.2.2.1,
    h5.trans ha.2.2.2.2⟩

/-! ## The chair at the end of the queue -/

theorem chairLast_nil (c : String) : ChairLast [] c := by
  intro h; simp at h

theorem chairLast_removeAll_append (l : List String) (c : String) :
    ChairLast (removeAll l c ++ [c]) c := by
  intro _
  exact ⟨removeAll l c, rfl, by simp [removeAll]⟩

theorem chairLast_tail (h : String) (t : List String) (c : String)
    (H : ChairLast (h :: t) c) : ChairLast t c := by
  intro hc
  obtain ⟨front, hf, hn⟩ := H (List.mem_cons_of_mem _ hc)
  cases front with
  | nil =>
    simp at hf
    rw [hf.2] at hc
    simp at hc
  | cons a rest =>
    simp at hf
    exact ⟨rest, hf.2, fun hm => hn (List.mem_cons_of_mem _ hm)⟩

theorem chairLast_removeAll (l : List String) (u c : String)
    (H : ChairLast l c) : ChairLast (removeAll l u) c := by
  intro hc
  unfold removeAll at hc ⊢
  have hmem := List.mem_filter.1 hc
  obtain ⟨front, hf, hn⟩ := H hmem.1
  refine ⟨front.filter (fun y => decide (y ≠ u)), ?_, fun hm => hn (List.mem_filter.1 hm).1⟩
  rw [hf, List.filter_append]
  congr 1
  exact List.filter_eq_self.2 (fun a ha => by
    rw [List.mem_singleton.1 ha]; exact hmem.2)

theorem chairLast_cons (l : List String) (u c : String) (hu : u ≠ c)
    (H : ChairLast l c) : ChairLast (u :: l) c := by
  intro hc
  have hc1 : c ∈ l := by
    rcases List.mem_cons.1 hc with h | h
    · exact absurd h.symm hu
    · exact h
  obtain ⟨front, hf, hn⟩ := H hc1
  refine ⟨u :: front, by rw [hf]; rfl, ?_⟩
  intro hm
  rcases List.mem_cons.1 hm with h | h
  · exact hu h.symm
  · exact hn h

/-- A queue with the chair at its end whose head is the chair has no other
entry. -/
theorem chairLast_head (t : List String) (c : String)
    (H : ChairLast (c :: t) c) : t = [] := by
  obtain ⟨front, hf, hn⟩ := H (List.mem_cons_self _ _)
  cases front with
  | nil => simp at hf; exact hf
  | cons a rest =>
    simp at hf
    exact absurd (by rw [hf.1]; exact List.mem_cons_self _ _) hn


/-! ## The state after each branch -/

/-- An effective `next`: the phase is `RollCall` or `InProgress` and the
requester is authorized.  The done set is emptied first when the phase was
`RollCall`; then an empty queue ends the meeting and a non-empty queue
gives the turn to its head. -/
theorem cmdNext_state (b : Bot) (s : Meeting) (cmd : CommandArgs)
    (hphase : s.m_state = State.RollCall ∨ s.m_state = State.InProgress)
    (hauth : authorized b s cmd) :
    (cmdNext b s cmd).1 =
      match s.m_participants with
      | [] =>
        { s with
            m_state := State.None
            m_participants := []
            m_participantsDone :=
              if s.m_state = State.RollCall then ∅ else s.m_participantsDone
            m_waiting := none }
      | h :: t =>
        { s with
            m_state := State.InProgress
            m_current := h
            m_participants := t
            m_participantsDone :=
              insert h (if s.m_state = State.RollCall then ∅ else s.m_participantsDone)
            m_waiting := some 30000 } := by
  unfold cmdNext
  rw [if_neg (not_not.2 hphase), if_pos hauth]
  rcases hphase with hs | hs
  · cases hp : s.m_participants <;> simp [doNext, hs, hp]
  · cases hp : s.m_participants <;> simp [doNext, hs, hp]

/-- A `next` in phase `None`, or from a requester who is not authorized,
leaves the state as it is. -/
theorem cmdNext_noop (b : Bot) (s : Meeting) (cmd : CommandArgs)
    (h : s.m_state = State.None ∨ ¬ authorized b s cmd) :
    (cmdNext b s cmd).1 = s := by
  unfold cmdNext
  split
  · rfl
  · rename_i hp
    rcases h with h | h
    · simp [h] at hp
    · rw [if_neg h]

/-- The three ways a `next` command can end. -/
theorem cmdNext_state_cases (P : Meeting → Prop) (b : Bot) (s : Meeting) (cmd : CommandArgs)
    (hsame : P s)
    (hend : s.m_state ≠ State.None → s.m_participants = [] →
      P { s with
            m_state := State.None
            m_participants := []
            m_participantsDone :=
              if s.m_state = State.RollCall then ∅ else s.m_participantsDone
            m_waiting := none })
    (hpop : ∀ h t, s.m_state ≠ State.None → s.m_participants = h :: t →
      P { s with
            m_state := State.InProgress
            m_current := h
            m_participants := t
            m_participantsDone :=
              insert h (if s.m_state = State.RollCall then ∅ else s.m_participantsDone)
            m_waiting := some 30000 }) :
    P (cmdNext b s cmd).1 := by
  by_cases hphase : s.m_state = State.RollCall ∨ s.m_state = State.InProgress
  · by_cases hauth : authorized b s cmd
    · rw [cmdNext_state b s cmd hphase hauth]
      have hne : s.m_state ≠ State.None := by
        rcases hphase with h | h <;> simp [h]
      cases hp : s.m_participants with
      | nil => exact hend hne hp
      | cons h t => exact hpop h t hne hp
    · rw [cmdNext_noop b s cmd (Or.inr hauth)]; exact hsame
  · have hn : s.m_state = State.None := by
      cases hs : s.m_state <;> simp [hs] at hphase ⊢
    rw [cmdNext_noop b s cmd (Or.inl hn)]; exact hsame

/-- The state after a `skip` command: unchanged, or the state after the
loop over the arguments when the phase allows it and the requester is
authorized. -/
theorem cmdSkip_state_cases (P : Meeting → Prop) (b : Bot) (s : Meeting) (cmd : CommandArgs)
    (hsame : P s)
    (hloop : s.m_state ≠ State.None → authorized b s cmd →
      P (cmd.args.foldl (skipArg b) (s, [])).1) :
    P (cmdSkip b s cmd).1 := by
  unfold cmdSkip
  split
  · exact hsame
  · rename_i hp
    have hne : s.m_state ≠ State.None := by
      intro h; simp [h] at hp
    split
    · rename_i ha; exact hloop hne ha
    · exact hsame

/-- The state after a `bump` command: unchanged, or the state after the
loop over the arguments when the phase allows it and the requester is
authorized. -/
theorem cmdBump_state_cases (P : Meeting → Prop) (b : Bot) (s : Meeting) (cmd : CommandArgs)
    (hsame : P s)
    (hloop : s.m_state ≠ State.None → authorized b s cmd →
      P (cmd.args.foldl (bumpArg b) (s, [])).1) :
    P (cmdBump b s cmd).1 := by
  unfold cmdBump
  split
  · exact hsame
  · rename_i hp
    have hne : s.m_state ≠ State.None := by
      intro h; simp [h] at hp
    split
    · rename_i ha; exact hloop hne ha
    · exact hsame

/-- The state after a `rollcall` command. -/
theorem cmdRollcall_state (b : Bot) (s : Meeting) (cmd : CommandArgs) :
    (cmdRollcall b s cmd).1 =
      if s.m_state = State.None then
        { m_state := State.RollCall
          m_participants := [cmd.user]
          m_participantsDone := ∅
          m_breakouts := []
          m_current := ""
          m_chair := cmd.user
          m_waiting := some 60000 }
      else s := by
  unfold cmdRollcall
  split <;> rfl

/-- The state after a `breakout` command. -/
theorem cmdBreakout_state (s : Meeting) (cmd : CommandArgs) :
    (cmdBreakout s cmd).1 =
      if s.m_state = State.InProgress then
        { s with m_breakouts := s.m_breakouts ++ [join " " cmd.args] }
      else s := by
  unfold cmdBreakout
  by_cases h : s.m_state = State.InProgress <;> simp [h]

/-- The state after a `done` command. -/
theorem cmdDone_state (b : Bot) (s : Meeting) (cmd : CommandArgs) :
    (cmdDone b s cmd).1 =
      if b.checkOps cmd = true then { s with m_state := State.None, m_waiting := none }
      else s := by
  unfold cmdDone
  split <;> rfl

/-- A chat message changes the pending queue and the timer only. -/
theorem handleMessage_frame (s : Meeting) (sender : String) :
    (handleMessage s sender).m_state = s.m_state ∧
    (handleMessage s sender).m_chair = s.m_chair ∧
    (handleMessage s sender).m_current = s.m_current ∧
    (handleMessage s sender).m_breakouts = s.m_breakouts ∧
    (handleMessage s sender).m_participantsDone = s.m_participantsDone := by
  unfold handleMessage
  simp only
  split <;> split <;> simp

/-- The pending queue after a chat message. -/
theorem handleMessage_participants (s : Meeting) (sender : String) :
    (handleMessage s sender).m_participants =
      if s.m_state ≠ State.None ∧ sender ∉ s.m_participantsDone ∧
          sender ∉ s.m_participants then
        removeAll (s.m_participants ++ [sender]) s.m_chair ++ [s.m_chair]
      else s.m_participants := by
  unfold handleMessage
  simp only
  split <;> split <;> simp

/-- The expiry of the timer changes the timer only. -/
theorem step_timerExpiry_frame (b : Bot) (s : Meeting) :
    (step b s Event.timerExpiry).1 = { s with m_waiting := none } := by
  unfold step
  cases h : s.m_waiting <;> simp
  cases s; simp_all


/-! ## Chair speaks last -/

/-- The `skip` loop keeps the chair at the end of the queue. -/
theorem skipLoop_chairLast (b : Bot) (args : List String) (s : Meeting)
    (H : ChairLast s.m_participants s.m_chair) :
    ChairLast (args.foldl (skipArg b) (s, [])).1.m_participants
      (args.foldl (skipArg b) (s, [])).1.m_chair := by
  have key := foldl_preserves (skipArg b)
    (fun r => r.1.m_chair = s.m_chair ∧ ChairLast r.1.m_participants s.m_chair)
    args (s, []) ⟨rfl, H⟩ (by
      intro a x _ ha
      by_cases h : b.userLookup x = ""
      · simpa [skipArg, h] using ha
      · simp only [skipArg, ne_eq, h, not_false_eq_true, if_true]
        exact ⟨ha.1, chairLast_removeAll _ _ _ ha.2⟩)
  rw [key.1]; exact key.2

/-- The `bump` loop keeps the chair at the end of the queue when no argument
resolves to the chair. -/
theorem bumpLoop_chairLast (b : Bot) (args : List String) (s : Meeting)
    (hargs : ∀ u ∈ args, ¬ resolvesTo b u s.m_chair)
    (H : ChairLast s.m_participants s.m_chair) :
    ChairLast (args.foldl (bumpArg b) (s, [])).1.m_participants
      (args.foldl (bumpArg b) (s, [])).1.m_chair := by
  have key := foldl_preserves (bumpArg b)
    (fun r => r.1.m_chair = s.m_chair ∧ ChairLast r.1.m_participants s.m_chair)
    args (s, []) ⟨rfl, H⟩ (by
      intro a x hx ha
      by_cases h : b.userLookup x = ""
      · simpa [bumpArg, h] using ha
      · simp only [bumpArg, ne_eq, h, not_false_eq_true, if_true]
        refine ⟨ha.1, chairLast_cons _ _ _ ?_ (chairLast_removeAll _ _ _ ha.2)⟩
        intro hc
        exact hargs x hx ⟨hc, fun he => h (hc.trans he)⟩)
  rw [key.1]; exact key.2

/-- Every event other than a `bump` of the chair keeps the chair at the end
of the queue. -/
theorem chairLast_step (b : Bot) (s : Meeting) (e : Event) (hok : noChairBump b s e)
    (H : ChairLast s.m_participants s.m_chair) :
    ChairLast (step b s e).1.m_participants (step b s e).1.m_chair := by
  cases e with
  | command cmd =>
    show ChairLast (handleCommand b s cmd).1.m_participants (handleCommand b s cmd).1.m_chair
    refine handleCommand_state_cases (fun r => ChairLast r.m_participants r.m_chair)
      b s cmd H ?_ ?_ ?_ ?_ ?_ ?_
    · intro _
      rw [cmdRollcall_state]
      split
      · intro _; exact ⟨[], rfl, by simp⟩
      · exact H
    · intro _
      refine cmdNext_state_cases (fun r => ChairLast r.m_participants r.m_chair)
        b s cmd H ?_ ?_
      · intro _ _; exact chairLast_nil _
      · intro h t _ hp
        rw [hp] at H
        exact chairLast_tail h t _ H
    · intro _
      refine cmdSkip_state_cases (fun r => ChairLast r.m_participants r.m_chair)
        b s cmd H ?_
      intro _ _
      exact skipLoop_chairLast b cmd.args s H
    · intro hc
      refine cmdBump_state_cases (fun r => ChairLast r.m_participants r.m_chair)
        b s cmd H ?_
      intro _ _
      exact bumpLoop_chairLast b cmd.args s (hok hc) H
    · intro _
      rw [cmdBreakout_state]
      split <;> exact H
    · intro _
      rw [cmdDone_state]
      split <;> exact H
  | message sender =>
    show ChairLast (handleMessage s sender).m_participants (handleMessage s sender).m_chair
    rw [handleMessage_participants, (handleMessage_frame s sender).2.1]
    split
    · exact chairLast_removeAll_append _ _
    · exact H
  | timerExpiry =>
    rw [step_timerExpiry_frame]
    exact H

/-- The chair is at the end of the queue in every state reachable without a
`bump` of the chair. -/
theorem chairLast_reachable (s : Meeting) (hr : ReachableBy noChairBump s) :
    ChairLast s.m_participants s.m_chair := by
  induction hr with
  | start => exact chairLast_nil _
  | step b s e _ hok ih => exact chairLast_step b s e hok ih

/-- A run whose events are all allowed leads from a reachable state to a
reachable state. -/
theorem reachableFromBy_run (ok : Bot → Meeting → Event → Prop) (b : Bot) (s0 : Meeting) :
    ∀ (es : List Event) (s : Meeting), ReachableFromBy ok s0 s → AllowedRun ok b s es →
      ReachableFromBy ok s0 (run b s es) := by
  intro es
  induction es with
  | nil => intro s hr _; exact hr
  | cons e es ih =>
    intro s hr hal
    exact ih (step b s e).1 (ReachableFromBy.step b s e hr hal.1) hal.2

/-- Under no restriction on the events, every run from the constructed
state ends in a reachable state. -/
theorem reachable_run (b : Bot) (es : List Event) : Reachable (run b Meeting.init es) := by
  refine reachableFromBy_run _ b Meeting.init es Meeting.init ReachableFromBy.start ?_
  generalize Meeting.init = s
  induction es generalizing s with
  | nil => trivial
  | cons e es ih => exact ⟨trivial, ih _⟩

/-! ## The queue when the meeting has ended by itself -/

/-- Every event other than a `done` of an operator keeps the pending queue
empty in phase `None`. -/
theorem endedEmpty_step (b : Bot) (s : Meeting) (e : Event) (hok : noForcedEnd b s e)
    (H : s.m_state = State.None → s.m_participants = []) :
    (step b s e).1.m_state = State.None → (step b s e).1.m_participants = [] := by
  cases e with
  | command cmd =>
    show (handleCommand b s cmd).1.m_state = State.None →
      (handleCommand b s cmd).1.m_participants = []
    refine handleCommand_state_cases (fun r => r.m_state = State.None → r.m_participants = [])
      b s cmd H ?_ ?_ ?_ ?_ ?_ ?_
    · intro _
      rw [cmdRollcall_state]
      split
      · intro h; cases h
      · exact H
    · intro _
      refine cmdNext_state_cases (fun r => r.m_state = State.None → r.m_participants = [])
        b s cmd H ?_ ?_
      · intro _ _ _; rfl
      · intro h t _ _ hn; cases hn
    · intro _
      refine cmdSkip_state_cases (fun r => r.m_state = State.None → r.m_participants = [])
        b s cmd H ?_
      intro hne _ hn
      rw [(skipLoop_frame b cmd.args (s, [])).1] at hn
      exact absurd hn hne
    · intro _
      refine cmdBump_state_cases (fun r => r.m_state = State.None → r.m_participants = [])
        b s cmd H ?_
      intro hne _ hn
      rw [(bumpLoop_frame b cmd.args (s, [])).1] at hn
      exact absurd hn hne
    · intro _
      rw [cmdBreakout_state]
      split <;> exact H
    · intro hc
      rw [cmdDone_state, hok hc]
      exact H
  | message sender =>
    show (handleMessage s sender).m_state = State.None →
      (handleMessage s sender).m_participants = []
    rw [handleMessage_participants, (handleMessage_frame s sender).1]
    intro hn
    simp [hn, H hn]
  | timerExpiry =>
    rw [step_timerExpiry_frame]
    exact H

/-! ## A skipped user stays out of the queue -/

/-- A round of the `skip` loop whose argument resolves to `user` takes
`user` out of the queue and puts it into the done set. -/
theorem skipArg_sets (b : Bot) (acc : Meeting × List Output) (x user : String)
    (hres : resolvesTo b x user) :
    user ∉ (skipArg b acc x).1.m_participants ∧
    user ∈ (skipArg b acc x).1.m_participantsDone := by
  obtain ⟨hl, hne⟩ := hres
  subst hl
  simp [skipArg, hne, removeAll]

/-- A round of the `skip` loop keeps a user out of the queue and in the done
set. -/
theorem skipArg_keeps (b : Bot) (acc : Meeting × List Output) (x user : String)
    (H : user ∉ acc.1.m_participants ∧ user ∈ acc.1.m_participantsDone) :
    user ∉ (skipArg b acc x).1.m_participants ∧
    user ∈ (skipArg b acc x).1.m_participantsDone := by
  by_cases h : b.userLookup x = ""
  · simpa [skipArg, h] using H
  · simp only [skipArg, ne_eq, h, not_false_eq_true, if_true]
    refine ⟨fun hm => H.1 ?_, Finset.mem_insert_of_mem H.2⟩
    unfold removeAll at hm
    exact (List.mem_filter.1 hm).1

/-- After the `skip` loop every user an argument resolves to is out of the
queue and in the done set. -/
theorem skipLoop_sets (b : Bot) (user : String) :
    ∀ (args : List String) (acc : Meeting × List Output) (u : String), u ∈ args →
      resolvesTo b u user →
      user ∉ (args.foldl (skipArg b) acc).1.m_participants ∧
      user ∈ (args.foldl (skipArg b) acc).1.m_participantsDone := by
  intro args
  induction args with
  | nil => intro acc u hu; simp at hu
  | cons x xs ih =>
    intro acc u hu hres
    rw [List.foldl_cons]
    rcases List.mem_cons.1 hu with h | h
    · subst h
      exact foldl_preserves (skipArg b)
        (fun r => user ∉ r.1.m_participants ∧ user ∈ r.1.m_participantsDone)
        xs (skipArg b acc u) (skipArg_sets b acc u user hres)
        (fun a y _ ha => skipArg_keeps b a y user ha)
    · exact ih (skipArg b acc x) u h hres

/-- The property `SkippedOut` is kept by every event that arrives while the
meeting is running and is not a `bump` of the user. -/
theorem skippedOut_step (user : String) (b : Bot) (s : Meeting) (e : Event)
    (hok : runningWithoutBumpOf user b s e) (H : SkippedOut user s) :
    SkippedOut user (step b s e).1 := by
  obtain ⟨hp, hnr, hin⟩ := H
  have hs : s.m_state = State.InProgress := by
    cases h : s.m_state
    · exact absurd h hok.1
    · exact absurd h hnr
    · rfl
  obtain ⟨hd, hch⟩ := hin hs
  have H : SkippedOut user s := ⟨hp, hnr, fun _ => ⟨hd, hch⟩⟩
  cases e with
  | command cmd =>
    show SkippedOut user (handleCommand b s cmd).1
    refine handleCommand_state_cases (SkippedOut user) b s cmd H ?_ ?_ ?_ ?_ ?_ ?_
    · intro _
      rw [cmdRollcall_state, if_neg hok.1]
      exact H
    · intro _
      refine cmdNext_state_cases (SkippedOut user) b s cmd H ?_ ?_
      · intro _ _
        exact ⟨by simp, by simp, by simp⟩
      · intro h t _ hq
        rw [hq] at hp
        refine ⟨fun hm => hp (List.mem_cons_of_mem _ hm), by simp, fun _ => ⟨?_, hch⟩⟩
        simp [hs, hd]
    · intro _
      refine cmdSkip_state_cases (SkippedOut user) b s cmd H ?_
      intro _ _
      have key := foldl_preserves (skipArg b)
        (fun r => user ∉ r.1.m_participants ∧ user ∈ r.1.m_participantsDone)
        cmd.args (s, []) ⟨hp, hd⟩ (fun a y _ ha => skipArg_keeps b a y user ha)
      obtain ⟨f1, f2, -⟩ := skipLoop_frame b cmd.args (s, [])
      exact ⟨key.1, by rw [f1]; exact hnr, fun _ => ⟨key.2, by rw [f2]; exact hch⟩⟩
    · intro hc
      refine cmdBump_state_cases (SkippedOut user) b s cmd H ?_
      intro _ _
      have key := foldl_preserves (bumpArg b)
        (fun r => user ∉ r.1.m_participants ∧ user ∈ r.1.m_participantsDone)
        cmd.args (s, []) ⟨hp, hd⟩ (by
          intro a y hy ha
          by_cases h : b.userLookup y = ""
          · simpa [bumpArg, h] using ha
          · have hne : user ≠ b.userLookup y := by
              intro he
              exact hok.2 hc y hy ⟨he.symm, fun h0 => h (he ▸ h0)⟩
            simp only [bumpArg, ne_eq, h, not_false_eq_true, if_true]
            refine ⟨?_, Finset.mem_erase.2 ⟨hne, ha.2⟩⟩
            intro hm
            rcases List.mem_cons.1 hm with h1 | h1
            · exact hne h1
            · unfold removeAll at h1
              exact ha.1 (List.mem_filter.1 h1).1)
      obtain ⟨f1, f2, -⟩ := bumpLoop_frame b cmd.args (s, [])
      exact ⟨key.1, by rw [f1]; exact hnr, fun _ => ⟨key.2, by rw [f2]; exact hch⟩⟩
    · intro _
      rw [cmdBreakout_state]
      split <;> exact H
    · intro _
      rw [cmdDone_state]
      split
      · exact ⟨hp, by simp, by simp⟩
      · exact H
  | message sender =>
    show SkippedOut user (handleMessage s sender)
    obtain ⟨f1, f2, -, -, f5⟩ := handleMessage_frame s sender
    refine ⟨?_, by rw [f1]; exact hnr, fun _ => ⟨by rw [f5]; exact hd, by rw [f2]; exact hch⟩⟩
    rw [handleMessage_participants]
    split
    · rename_i hcond
      have hsu : user ≠ sender := fun he => hcond.2.1 (he ▸ hd)
      intro hm
      rcases List.mem_append.1 hm with h1 | h1
      · unfold removeAll at h1
        rcases List.mem_append.1 (List.mem_filter.1 h1).1 with h2 | h2
        · exact hp h2
        · exact hsu (List.mem_singleton.1 h2)
      · exact hch (List.mem_singleton.1 h1)
    · exact hp
  | timerExpiry =>
    rw [step_timerExpiry_frame]
    exact H

/-! ## How many `next` commands end the meeting -/

/-- In phase `None` any number of `next` commands leaves the phase at
`None`. -/
theorem nexts_from_None (b : Bot) :
    ∀ (cs : List CommandArgs) (s : Meeting), s.m_state = State.None →
      (∀ c ∈ cs, c.command = "next") →
      (run b s (cs.map Event.command)).m_state = State.None := by
  intro cs
  induction cs with
  | nil => intro s hs _; exact hs
  | cons c cs ih =>
    intro s hs hcs
    have h1 : (step b s (Event.command c)).1 = s := by
      show (handleCommand b s c).1 = s
      rw [handleCommand_next b s c (hcs c (List.mem_cons_self _ _))]
      exact cmdNext_noop b s c (Or.inl hs)
    show (run b (step b s (Event.command c)).1 (cs.map Event.command)).m_state = State.None
    rw [h1]
    exact ih s hs (fun c hc => hcs c (List.mem_cons_of_mem _ hc))

/-- In phase `InProgress` with `N` pending participants, authorized `next`
commands bring the phase to `None` exactly when there are at least `N + 1`
of them. -/
theorem nexts_from_InProgress (b : Bot) :
    ∀ (cs : List CommandArgs) (s : Meeting), s.m_state = State.InProgress →
      (∀ c ∈ cs, c.command = "next" ∧ authorized b s c) →
      ((run b s (cs.map Event.command)).m_state = State.None ↔
        s.m_participants.length + 1 ≤ cs.length) := by
  intro cs
  induction cs with
  | nil =>
    intro s hs _
    simp [run, hs]
  | cons c cs ih =>
    intro s hs hcs
    obtain ⟨hc, hauth⟩ := hcs c (List.mem_cons_self _ _)
    have hrest : ∀ c1 ∈ cs, c1.command = "next" ∧ authorized b s c1 :=
      fun c1 h1 => hcs c1 (List.mem_cons_of_mem _ h1)
    show (run b (handleCommand b s c).1 (cs.map Event.command)).m_state = State.None ↔ _
    rw [handleCommand_next b s c hc, cmdNext_state b s c (Or.inr hs) hauth]
    cases hp : s.m_participants with
    | nil =>
      simp only
      have hn := nexts_from_None b cs
        { s with
            m_state := State.None
            m_participants := []
            m_participantsDone :=
              if s.m_state = State.RollCall then ∅ else s.m_participantsDone
            m_waiting := none } rfl (fun c1 h1 => (hrest c1 h1).1)
      simp [hn]
    | cons h t =>
      simp only
      exact (ih
        { s with
            m_state := State.InProgress
            m_current := h
            m_participants := t
            m_participantsDone :=
              insert h (if s.m_state = State.RollCall then ∅ else s.m_participantsDone)
            m_waiting := some 30000 } rfl hrest).trans (by simp)


/-! ## Pending and done -/

theorem mem_removeAll (l : List String) (x u : String) :
    u ∈ removeAll l x ↔ u ∈ l ∧ u ≠ x := by
  simp [removeAll]

theorem nodup_removeAll (l : List String) (x : String) (h : l.Nodup) :
    (removeAll l x).Nodup :=
  h.filter _

/-- A round of the `skip` loop keeps the queue free of repetitions and keeps
every identity but `chair` out of the overlap of queue and done set. -/
theorem skipArg_disjoint (b : Bot) (chair : String) (acc : Meeting × List Output) (x : String)
    (H : acc.1.m_participants.Nodup ∧
      ∀ u ∈ acc.1.m_participants, u ∈ acc.1.m_participantsDone → u = chair) :
    (skipArg b acc x).1.m_participants.Nodup ∧
      ∀ u ∈ (skipArg b acc x).1.m_participants,
        u ∈ (skipArg b acc x).1.m_participantsDone → u = chair := by
  by_cases h : b.userLookup x = ""
  · simpa [skipArg, h] using H
  · simp only [skipArg, ne_eq, h, not_false_eq_true, if_true]
    refine ⟨nodup_removeAll _ _ H.1, ?_⟩
    intro u hu hd
    obtain ⟨hu1, hu2⟩ := (mem_removeAll _ _ _).1 hu
    rcases Finset.mem_insert.1 hd with h1 | h1
    · exact absurd h1 hu2
    · exact H.2 u hu1 h1

/-- A round of the `bump` loop keeps the queue free of repetitions and keeps
every identity but `chair` out of the overlap of queue and done set. -/
theorem bumpArg_disjoint (b : Bot) (chair : String) (acc : Meeting × List Output) (x : String)
    (H : acc.1.m_participants.Nodup ∧
      ∀ u ∈ acc.1.m_participants, u ∈ acc.1.m_participantsDone → u = chair) :
    (bumpArg b acc x).1.m_participants.Nodup ∧
      ∀ u ∈ (bumpArg b acc x).1.m_participants,
        u ∈ (bumpArg b acc x).1.m_participantsDone → u = chair := by
  by_cases h : b.userLookup x = ""
  · simpa [bumpArg, h] using H
  · simp only [bumpArg, ne_eq, h, not_false_eq_true, if_true]
    refine ⟨List.nodup_cons.2 ⟨fun hm => ((mem_removeAll _ _ _).1 hm).2 rfl,
      nodup_removeAll _ _ H.1⟩, ?_⟩
    intro u hu hd
    obtain ⟨hne, hd1⟩ := Finset.mem_erase.1 hd
    rcases List.mem_cons.1 hu with h1 | h1
    · exact absurd h1 hne
    · exact H.2 u ((mem_removeAll _ _ _).1 h1).1 hd1

/-- Every event keeps the queue free of repetitions and keeps every identity
but the chair out of the overlap of queue and done set. -/
theorem disjointButChair_step (b : Bot) (s : Meeting) (e : Event)
    (H : DisjointButChair s) : DisjointButChair (step b s e).1 := by
  cases e with
  | command cmd =>
    show DisjointButChair (handleCommand b s cmd).1
    refine handleCommand_state_cases DisjointButChair b s cmd H ?_ ?_ ?_ ?_ ?_ ?_
    · intro _
      rw [cmdRollcall_state]
      split
      · exact ⟨List.nodup_singleton _, fun u _ hd => absurd hd (Finset.not_mem_empty u)⟩
      · exact H
    · intro _
      refine cmdNext_state_cases DisjointButChair b s cmd H ?_ ?_
      · intro _ _
        exact ⟨List.nodup_nil, fun u hu => absurd hu (List.not_mem_nil u)⟩
      · intro h t _ hp
        obtain ⟨hn, hd⟩ := H
        rw [hp] at hn hd
        obtain ⟨hnot, hnt⟩ := List.nodup_cons.1 hn
        refine ⟨hnt, ?_⟩
        intro u hu hdu
        rcases Finset.mem_insert.1 hdu with h1 | h1
        · exact absurd (h1 ▸ hu) hnot
        · by_cases hr : s.m_state = State.RollCall
          · rw [if_pos hr] at h1
            exact absurd h1 (Finset.not_mem_empty u)
          · rw [if_neg hr] at h1
            exact hd u (List.mem_cons_of_mem _ hu) h1
    · intro _
      refine cmdSkip_state_cases DisjointButChair b s cmd H ?_
      intro _ _
      have key := foldl_preserves (skipArg b)
        (fun r => r.1.m_participants.Nodup ∧
          ∀ u ∈ r.1.m_participants, u ∈ r.1.m_participantsDone → u = s.m_chair)
        cmd.args (s, []) H (fun a x _ ha => skipArg_disjoint b s.m_chair a x ha)
      exact ⟨key.1, by rw [(skipLoop_frame b cmd.args (s, [])).2.1]; exact key.2⟩
    · intro _
      refine cmdBump_state_cases DisjointButChair b s cmd H ?_
      intro _ _
      have key := foldl_preserves (bumpArg b)
        (fun r => r.1.m_participants.Nodup ∧
          ∀ u ∈ r.1.m_participants, u ∈ r.1.m_participantsDone → u = s.m_chair)
        cmd.args (s, []) H (fun a x _ ha => bumpArg_disjoint b s.m_chair a x ha)
      exact ⟨key.1, by rw [(bumpLoop_frame b cmd.args (s, [])).2.1]; exact key.2⟩
    · intro _
      rw [cmdBreakout_state]
      split <;> exact H
    · intro _
      rw [cmdDone_state]
      split <;> exact H
  | message sender =>
    show DisjointButChair (handleMessage s sender)
    obtain ⟨-, f2, -, -, f5⟩ := handleMessage_frame s sender
    unfold DisjointButChair
    rw [handleMessage_participants, f2, f5]
    split
    · rename_i hcond
      obtain ⟨-, hsd, hsp⟩ := hcond
      have hnd : (s.m_participants ++ [sender]).Nodup := by
        refine List.Nodup.append H.1 (List.nodup_singleton _) ?_
        intro a ha hb
        exact hsp (List.mem_singleton.1 hb ▸ ha)
      refine ⟨?_, ?_⟩
      · refine List.Nodup.append (nodup_removeAll _ _ hnd) (List.nodup_singleton _) ?_
        intro a ha hb
        exact ((mem_removeAll _ _ _).1 ha).2 (List.mem_singleton.1 hb)
      · intro u hu hd
        rcases List.mem_append.1 hu with h1 | h1
        · rcases List.mem_append.1 ((mem_removeAll _ _ _).1 h1).1 with h2 | h2
          · exact H.2 u h2 hd
          · exact absurd (List.mem_singleton.1 h2 ▸ hd) hsd
        · exact List.mem_singleton.1 h1
    · exact H
  | timerExpiry =>
    rw [step_timerExpiry_frame]
    exact H

/-- In every reachable state the queue holds no identity twice, and an
identity that is both pending and done is the chair. -/
theorem disjointButChair_reachable (s : Meeting) (hr : Reachable s) : DisjointButChair s := by
  induction hr with
  | start => exact ⟨List.nodup_nil, fun u hu => absurd hu (List.not_mem_nil u)⟩
  | step b s e _ _ ih => exact disjointButChair_step b s e ih

/-! ## The claims -/

/-- C1 (the code at a failing input). The pending queue and the done set are
not disjoint in every reachable state: after `rollcall` by alice, `next` by
alice and a chat message of bob, alice is both pending and done.  She took
her turn with the `next` command, and the message of bob, a new speaker, put
the chair back at the end of the queue although the chair was in the done
set.  The chair is the only identity this can happen to, see
`disjointButChair_reachable`. -/
theorem chair_back_in_queue_while_done :
    Reachable chairSpokeThenBob ∧
    chairSpokeThenBob.m_state = State.InProgress ∧
    chairSpokeThenBob.m_participants = ["bob", "alice"] ∧
    chairSpokeThenBob.m_participantsDone = {"alice"} ∧
    ¬ (∀ u, u ∈ chairSpokeThenBob.m_participants → u ∉ chairSpokeThenBob.m_participantsDone) :=
  ⟨reachable_run roomBot _, by decide, by decide, by decide, by decide⟩

/-- C2. Chair speaks last.  In every state reachable by rollcall, chat
activity, next, skip, breakout, done, timer expiry and bump commands whose arguments do not
resolve to the chair, the chair, if pending, is the last pending entry and
occurs nowhere else in the queue; hence an authorized `next` that pops the
queue makes the chair the current speaker only when the chair was the only
pending participant. -/
theorem chair_speaks_last (s : Meeting) (hr : ReachableBy noChairBump s) :
    (s.m_chair ∈ s.m_participants →
      ∃ front, s.m_participants = front ++ [s.m_chair] ∧ s.m_chair ∉ front) ∧
    (∀ (b : Bot) (cmd : CommandArgs), cmd.command = "next" → authorized b s cmd →
      (s.m_state = State.RollCall ∨ s.m_state = State.InProgress) →
      s.m_participants ≠ [] →
      (handleCommand b s cmd).1.m_current = s.m_chair →
      s.m_participants = [s.m_chair]) := by
  have H := chairLast_reachable s hr
  refine ⟨H, ?_⟩
  intro b cmd hc hauth hphase hne hcur
  rw [handleCommand_next b s cmd hc, cmdNext_state b s cmd hphase hauth] at hcur
  cases hp : s.m_participants with
  | nil => exact absurd hp hne
  | cons h t =>
    rw [hp] at hcur H
    simp only at hcur
    rw [hcur] at H ⊢
    rw [chairLast_head t _ H]

/-- C2, at an example: the state `rollCalled` with the queue bob, alice and
the chair alice. -/
theorem chair_speaks_last_witness :
    ReachableBy noChairBump rollCalled ∧
    rollCalled.m_participants = ["bob", "alice"] ∧
    ((rollCalled.m_chair ∈ rollCalled.m_participants →
      ∃ front, rollCalled.m_participants = front ++ [rollCalled.m_chair] ∧
        rollCalled.m_chair ∉ front) ∧
    (∀ (b : Bot) (cmd : CommandArgs), cmd.command = "next" → authorized b rollCalled cmd →
      (rollCalled.m_state = State.RollCall ∨ rollCalled.m_state = State.InProgress) →
      rollCalled.m_participants ≠ [] →
      (handleCommand b rollCalled cmd).1.m_current = rollCalled.m_chair →
      rollCalled.m_participants = [rollCalled.m_chair])) :=
  ⟨reachableFromBy_run noChairBump roomBot Meeting.init _ Meeting.init
      ReachableFromBy.start (by decide),
    by decide,
    chair_speaks_last rollCalled
      (reachableFromBy_run noChairBump roomBot Meeting.init _ Meeting.init
        ReachableFromBy.start (by decide))⟩

/-- C3 fails as stated: in `rollCalled` the phase is `RollCall` and two
participants are pending, yet after two `next` commands of the chair the phase
is `InProgress`, not `None`; the second command has given alice, the last
pending participant, her turn. -/
theorem two_nexts_leave_the_meeting_running :
    rollCalled = run roomBot Meeting.init [mkCmd "alice" "rollcall" [], Event.message "bob"] ∧
    rollCalled.m_state = State.RollCall ∧
    rollCalled.m_participants.length = 2 ∧
    authorized roomBot rollCalled (cmdOf "alice" "next" []) ∧
    (run roomBot rollCalled [mkCmd "alice" "next" [], mkCmd "alice" "next" []]).m_current
      = "alice" ∧
    (run roomBot rollCalled [mkCmd "alice" "next" [], mkCmd "alice" "next" []]).m_participants
      = [] ∧
    (run roomBot rollCalled [mkCmd "alice" "next" [], mkCmd "alice" "next" []]).m_state
      ≠ State.None := by
  decide

/-- C3 (as amended). Starting from any state with phase `RollCall` and `N`
pending participants, consecutive `next` commands issued by the chair or an operator
bring the phase back to `None` with the command number `N + 1`, not earlier:
after `k` such commands the phase is `None` exactly when `N + 1 ≤ k`. -/
theorem next_ends_meeting_after_queue_length_plus_one (b : Bot) (s : Meeting)
    (cs : List CommandArgs) (hs : s.m_state = State.RollCall)
    (hcs : ∀ c ∈ cs, c.command = "next" ∧ authorized b s c) :
    (run b s (cs.map Event.command)).m_state = State.None ↔
      s.m_participants.length + 1 ≤ cs.length := by
  cases cs with
  | nil => simp [run, hs]
  | cons c cs =>
    obtain ⟨hc, hauth⟩ := hcs c (List.mem_cons_self _ _)
    have hrest : ∀ c1 ∈ cs, c1.command = "next" ∧ authorized b s c1 :=
      fun c1 h1 => hcs c1 (List.mem_cons_of_mem _ h1)
    show (run b (handleCommand b s c).1 (cs.map Event.command)).m_state = State.None ↔ _
    rw [handleCommand_next b s c hc, cmdNext_state b s c (Or.inl hs) hauth]
    cases hp : s.m_participants with
    | nil =>
      simp only
      have hn := nexts_from_None b cs
        { s with
            m_state := State.None
            m_participants := []
            m_participantsDone :=
              if s.m_state = State.RollCall then ∅ else s.m_participantsDone
            m_waiting := none } rfl (fun c1 h1 => (hrest c1 h1).1)
      simp [hn]
    | cons h t =>
      simp only
      exact (nexts_from_InProgress b cs
        { s with
            m_state := State.InProgress
            m_current := h
            m_participants := t
            m_participantsDone :=
              insert h (if s.m_state = State.RollCall then ∅ else s.m_participantsDone)
            m_waiting := some 30000 } rfl hrest).trans (by simp)

/-- C3 (as amended), at an example: from `rollCalled`, with two pending
participants, three `next` commands of the chair end the meeting. -/
theorem next_ends_meeting_after_queue_length_plus_one_witness :
    ((run roomBot rollCalled
        ([cmdOf "alice" "next" [], cmdOf "alice" "next" [], cmdOf "alice" "next" []].map
          Event.command)).m_state = State.None ↔
      rollCalled.m_participants.length + 1 ≤
        [cmdOf "alice" "next" [], cmdOf "alice" "next" [], cmdOf "alice" "next" []].length) ∧
    rollCalled.m_participants.length = 2 :=
  ⟨next_ends_meeting_after_queue_length_plus_one roomBot rollCalled
      [cmdOf "alice" "next" [], cmdOf "alice" "next" [], cmdOf "alice" "next" []]
      (by decide) (by decide),
    by decide⟩

/-- C4 (the code at two failing inputs). A skipped user can get the turn in
the same meeting.  First, a `skip` of bob during the roll call, announced
with the words that bob will be skipped this meeting: the `next` that starts
the turns empties the done set, a later message of bob puts him back into the
queue, and the following `next` gives him the turn.  Second, a `skip` of the
chair during the turns: the message of a new speaker puts the chair back at
the end of the queue, and a later `next` gives the chair the turn.  In both
runs the phase never returns to `None` and the skipped user is never
bumped. -/
theorem skip_is_not_always_permanent :
    (rollCalled.m_state = State.RollCall ∧
      authorized roomBot rollCalled (cmdOf "alice" "skip" ["bob"]) ∧
      resolvesTo roomBot "bob" "bob" ∧
      (handleCommand roomBot rollCalled (cmdOf "alice" "skip" ["bob"])).2
        = [Output.text "User bob will be skipped this meeting."] ∧
      ReachableFromBy (runningWithoutBumpOf "bob")
        (handleCommand roomBot rollCalled (cmdOf "alice" "skip" ["bob"])).1
        skippedInRollCall ∧
      skippedInRollCall.m_state = State.InProgress ∧
      skippedInRollCall.m_current = "alice" ∧
      skippedInRollCall.m_participants = ["bob", "alice"] ∧
      (handleCommand roomBot skippedInRollCall (cmdOf "alice" "next" [])).1.m_current
        = "bob" ∧
      (handleCommand roomBot skippedInRollCall (cmdOf "alice" "next" [])).1.m_participants
        = ["alice"]) ∧
    (midMeeting.m_state = State.InProgress ∧
      authorized roomBot midMeeting (cmdOf "alice" "skip" ["alice"]) ∧
      resolvesTo roomBot "alice" "alice" ∧
      ReachableFromBy (runningWithoutBumpOf "alice")
        (handleCommand roomBot midMeeting (cmdOf "alice" "skip" ["alice"])).1
        chairSkipped ∧
      chairSkipped.m_state = State.InProgress ∧
      chairSkipped.m_current = "carol" ∧
      chairSkipped.m_participants = ["alice"] ∧
      (handleCommand roomBot chairSkipped (cmdOf "alice" "next" [])).1.m_current
        = "alice" ∧
      (handleCommand roomBot chairSkipped (cmdOf "alice" "next" [])).1.m_participants
        = []) :=
  ⟨⟨by decide, by decide, by decide, by decide,
      reachableFromBy_run (runningWithoutBumpOf "bob") roomBot _ _ _
        ReachableFromBy.start (by decide),
      by decide, by decide, by decide, by decide, by decide⟩,
    ⟨by decide, by decide, by decide,
      reachableFromBy_run (runningWithoutBumpOf "alice") roomBot _ _ _
        ReachableFromBy.start (by decide),
      by decide, by decide, by decide, by decide, by decide⟩⟩

/-- What does hold of a skip in the code.  Once an authorized `skip` issued
in phase `InProgress` has resolved an argument to a user other than the
chair, then in every state the meeting passes through before the phase
returns to `None`, as long as the user is not bumped: the user is not
pending, so that no `next` command gives the user the turn (a `next` after
which the user is the current speaker has popped nothing: the queue and the
current speaker are what they were). -/
theorem skip_is_permanent (b0 : Bot) (s : Meeting) (cmd : CommandArgs) (u user : String)
    (hs : s.m_state = State.InProgress) (hc : cmd.command = "skip")
    (hauth : authorized b0 s cmd) (hu : u ∈ cmd.args) (hres : resolvesTo b0 u user)
    (hchair : user ≠ s.m_chair) (s1 : Meeting)
    (hr : ReachableFromBy (runningWithoutBumpOf user) (handleCommand b0 s cmd).1 s1) :
    user ∉ s1.m_participants ∧
    ∀ (b : Bot) (c : CommandArgs), c.command = "next" →
      (handleCommand b s1 c).1.m_current = user →
      (handleCommand b s1 c).1.m_participants = s1.m_participants ∧
      (handleCommand b s1 c).1.m_current = s1.m_current := by
  have hK : SkippedOut user s1 := by
    induction hr with
    | start =>
      rw [handleCommand_skip b0 s cmd hc]
      unfold cmdSkip
      rw [if_neg (not_not.2 (Or.inr hs)), if_pos hauth]
      obtain ⟨f1, f2, -⟩ := skipLoop_frame b0 cmd.args (s, [])
      obtain ⟨k1, k2⟩ := skipLoop_sets b0 user cmd.args (s, []) u hu hres
      exact ⟨k1, by rw [f1, hs]; simp, fun _ => ⟨k2, by rw [f2]; exact hchair⟩⟩
    | step b s2 e _ hok ih => exact skippedOut_step user b s2 e hok ih
  refine ⟨hK.1, ?_⟩
  intro b c hcn
  rw [handleCommand_next b s1 c hcn]
  refine cmdNext_state_cases
    (fun r => r.m_current = user → r.m_participants = s1.m_participants ∧
      r.m_current = s1.m_current) b s1 c (fun _ => ⟨rfl, rfl⟩) ?_ ?_
  · intro _ hq _
    exact ⟨hq.symm, rfl⟩
  · intro h t _ hq hcur
    simp only at hcur
    exact absurd (by rw [hq, hcur]; exact List.mem_cons_self _ _) hK.1

/-- The lasting skip, at an example: in `threeInTurns` alice skips carol;
carol writes a message and alice gives the next turn; carol is not pending
afterwards and no `next` gives her the turn. -/
theorem skip_is_permanent_witness :
    threeInTurns.m_participants = ["carol", "alice"] ∧
    ("carol" ∉ carolSkipped.m_participants ∧
      ∀ (b : Bot) (c : CommandArgs), c.command = "next" →
        (handleCommand b carolSkipped c).1.m_current = "carol" →
        (handleCommand b carolSkipped c).1.m_participants = carolSkipped.m_participants ∧
        (handleCommand b carolSkipped c).1.m_current = carolSkipped.m_current) :=
  ⟨by decide,
    skip_is_permanent roomBot threeInTurns (cmdOf "alice" "skip" ["carol"]) "carol" "carol"
      (by decide) (by decide) (by decide) (by decide) (by decide) (by decide) carolSkipped
      (reachableFromBy_run (runningWithoutBumpOf "carol") roomBot _ _ _
        ReachableFromBy.start (by decide))⟩

/-- C5. Bump reinstates eligibility: in phase `RollCall` or `InProgress`,
after `skip [u]` followed by `bump [u]`, both sent by the chair, where `u`
resolves to a user, the next `next` command of the chair makes that user the
current speaker. -/
theorem skip_bump_next (b : Bot) (s : Meeting) (u i1 i2 i3 : String) (args3 : List String)
    (hs : s.m_state = State.RollCall ∨ s.m_state = State.InProgress)
    (hu : b.userLookup u ≠ "") :
    (handleCommand b
      (handleCommand b
        (handleCommand b s { id := i1, command := "skip", args := [u], user := s.m_chair }).1
        { id := i2, command := "bump", args := [u], user := s.m_chair }).1
      { id := i3, command := "next", args := args3, user := s.m_chair }).1.m_current
      = b.userLookup u := by
  rw [handleCommand_next _ _ _ rfl, handleCommand_bump _ _ _ rfl, handleCommand_skip _ _ _ rfl]
  rcases hs with hs | hs <;>
    simp [cmdSkip, cmdBump, cmdNext, skipArg, bumpArg, doNext, hs, hu]

/-- C5, at an example: in `threeInTurns`, where carol is pending before
alice, alice skips and bumps carol and then gives the turn: to carol. -/
theorem skip_bump_next_witness :
    (handleCommand roomBot
      (handleCommand roomBot
        (handleCommand roomBot threeInTurns
          { id := "", command := "skip", args := ["carol"], user := threeInTurns.m_chair }).1
        { id := "", command := "bump", args := ["carol"], user := threeInTurns.m_chair }).1
      { id := "", command := "next", args := [], user := threeInTurns.m_chair }).1.m_current
      = roomBot.userLookup "carol" ∧
    roomBot.userLookup "carol" = "carol" :=
  ⟨skip_bump_next roomBot threeInTurns "carol" "" "" "" [] (by decide) (by decide),
    by decide⟩

/-- C6. A `rollcall` command received in phase `None` resets the session,
whatever an earlier meeting has left: afterwards the phase is `RollCall`, the
queue holds the initiator only, the initiator is the chair, and the done set,
the breakouts and the current speaker are empty. -/
theorem rollcall_from_None_resets (b : Bot) (s : Meeting) (cmd : CommandArgs)
    (hc : cmd.command = "rollcall") (hs : s.m_state = State.None) :
    (handleCommand b s cmd).1.m_state = State.RollCall ∧
    (handleCommand b s cmd).1.m_participants = [cmd.user] ∧
    (handleCommand b s cmd).1.m_chair = cmd.user ∧
    (handleCommand b s cmd).1.m_participantsDone = ∅ ∧
    (handleCommand b s cmd).1.m_breakouts = [] ∧
    (handleCommand b s cmd).1.m_current = "" := by
  simp [handleCommand_rollcall b s cmd hc, cmdRollcall, hs]

/-- C6, at an example: bob calls the roll in `endedByDone`, where the meeting
ended by the operator has left a queue, a done set, a breakout, a current
speaker and a chair. -/
theorem rollcall_from_None_resets_witness :
    endedByDone.m_participants = ["alice"] ∧
    ((handleCommand roomBot endedByDone (cmdOf "bob" "rollcall" [])).1.m_state
        = State.RollCall ∧
      (handleCommand roomBot endedByDone (cmdOf "bob" "rollcall" [])).1.m_participants
        = [(cmdOf "bob" "rollcall" []).user] ∧
      (handleCommand roomBot endedByDone (cmdOf "bob" "rollcall" [])).1.m_chair
        = (cmdOf "bob" "rollcall" []).user ∧
      (handleCommand roomBot endedByDone (cmdOf "bob" "rollcall" [])).1.m_participantsDone
        = ∅ ∧
      (handleCommand roomBot endedByDone (cmdOf "bob" "rollcall" [])).1.m_breakouts = [] ∧
      (handleCommand roomBot endedByDone (cmdOf "bob" "rollcall" [])).1.m_current = "") :=
  ⟨by decide,
    rollcall_from_None_resets roomBot endedByDone (cmdOf "bob" "rollcall" []) (by decide)
      (by decide)⟩

/-- C7. A `rollcall` command received in phase `RollCall` or `InProgress`
changes no field of the session, the timer included, and sends the short
status line of the phase and nothing else. -/
theorem rollcall_again_changes_nothing (b : Bot) (s : Meeting) (cmd : CommandArgs)
    (hc : cmd.command = "rollcall")
    (hs : s.m_state = State.RollCall ∨ s.m_state = State.InProgress) :
    handleCommand b s cmd = (s, shortStatus s) ∧
    shortStatus s =
      [Output.text (if s.m_state = State.RollCall then "Doing the rollcall."
                    else "Meeting in progress.")] := by
  rw [handleCommand_rollcall b s cmd hc]
  rcases hs with hs | hs <;> simp [cmdRollcall, hs, shortStatus]

/-- C7, at an example: carol calls the roll in `midMeeting`. -/
theorem rollcall_again_changes_nothing_witness :
    handleCommand roomBot midMeeting (cmdOf "carol" "rollcall" [])
      = (midMeeting, shortStatus midMeeting) ∧
    shortStatus midMeeting =
      [Output.text (if midMeeting.m_state = State.RollCall then "Doing the rollcall."
                    else "Meeting in progress.")] :=
  rollcall_again_changes_nothing roomBot midMeeting (cmdOf "carol" "rollcall" [])
    (by decide) (by decide)

/-- C8 fails as stated: the operator ends `midMeeting` with `done`; the phase
is `None` and the timer is stopped, but the queue, the done set, the
breakouts, the current speaker and the chair are what they were, none of them
empty. -/
theorem done_leaves_the_session_fields :
    roomBot.checkOps (cmdOf "op" "done" []) = true ∧
    (handleCommand roomBot midMeeting (cmdOf "op" "done" [])).1.m_state = State.None ∧
    (handleCommand roomBot midMeeting (cmdOf "op" "done" [])).1.m_waiting = none ∧
    (handleCommand roomBot midMeeting (cmdOf "op" "done" [])).1.m_participants
      = ["alice"] ∧
    (handleCommand roomBot midMeeting (cmdOf "op" "done" [])).1.m_participantsDone
      = {"bob"} ∧
    (handleCommand roomBot midMeeting (cmdOf "op" "done" [])).1.m_breakouts
      = ["budget talk"] ∧
    (handleCommand roomBot midMeeting (cmdOf "op" "done" [])).1.m_current = "bob" ∧
    (handleCommand roomBot midMeeting (cmdOf "op" "done" [])).1.m_chair = "alice" := by
  decide

/-- C8 (as amended). A `done` command of an operator, in any phase and with
any pending entries, leaves the phase at `None` and the timer stopped; the
queue, the done set, the breakouts, the current speaker and the chair keep
their values. -/
theorem done_by_operator (b : Bot) (s : Meeting) (cmd : CommandArgs)
    (hc : cmd.command = "done") (hop : b.checkOps cmd = true) :
    (handleCommand b s cmd).1.m_state = State.None ∧
    (handleCommand b s cmd).1.m_waiting = none ∧
    (handleCommand b s cmd).1.m_participants = s.m_participants ∧
    (handleCommand b s cmd).1.m_participantsDone = s.m_participantsDone ∧
    (handleCommand b s cmd).1.m_breakouts = s.m_breakouts ∧
    (handleCommand b s cmd).1.m_current = s.m_current ∧
    (handleCommand b s cmd).1.m_chair = s.m_chair := by
  simp [handleCommand_done b s cmd hc, cmdDone, hop]

/-- C8 (as amended), at an example: the operator ends `midMeeting`. -/
theorem done_by_operator_witness :
    (handleCommand roomBot midMeeting (cmdOf "op" "done" [])).1.m_state = State.None ∧
    (handleCommand roomBot midMeeting (cmdOf "op" "done" [])).1.m_waiting = none ∧
    (handleCommand roomBot midMeeting (cmdOf "op" "done" [])).1.m_participants
      = midMeeting.m_participants ∧
    (handleCommand roomBot midMeeting (cmdOf "op" "done" [])).1.m_participantsDone
      = midMeeting.m_participantsDone ∧
    (handleCommand roomBot midMeeting (cmdOf "op" "done" [])).1.m_breakouts
      = midMeeting.m_breakouts ∧
    (handleCommand roomBot midMeeting (cmdOf "op" "done" [])).1.m_current
      = midMeeting.m_current ∧
    (handleCommand roomBot midMeeting (cmdOf "op" "done" [])).1.m_chair
      = midMeeting.m_chair :=
  done_by_operator roomBot midMeeting (cmdOf "op" "done" []) (by decide) (by decide)

/-- C9 fails as stated, in two reachable states of phase `None`.  In
`endedByNext`, where `next` commands alone have ended the meeting, the done
set, the breakouts, the current speaker and the chair are not empty.  In
`endedByDone`, where the operator has ended the meeting, the queue is not
empty either. -/
theorem fields_outlive_the_meeting :
    (ReachableBy noForcedEnd endedByNext ∧
      endedByNext.m_state = State.None ∧
      endedByNext.m_participants = [] ∧
      endedByNext.m_participantsDone = {"alice", "bob"} ∧
      endedByNext.m_breakouts = ["budget talk"] ∧
      endedByNext.m_current = "alice" ∧
      endedByNext.m_chair = "alice") ∧
    (Reachable endedByDone ∧
      endedByDone.m_state = State.None ∧
      endedByDone.m_participants = ["alice"]) :=
  ⟨⟨reachableFromBy_run noForcedEnd roomBot Meeting.init _ _
        (reachableFromBy_run noForcedEnd roomBot Meeting.init _ Meeting.init
          ReachableFromBy.start (by decide)) (by decide),
      by decide, by decide, by decide, by decide, by decide, by decide⟩,
    ⟨reachableFromBy_run _ roomBot Meeting.init _ _ (reachable_run roomBot _)
        ⟨trivial, trivial⟩,
      by decide, by decide⟩⟩

/-- C9 (as amended). In every state reachable by events none of which is a
`done` command of an operator, phase `None` implies that the pending queue is empty.  (The
done set, the breakouts, the current speaker and the chair are not emptied
when the phase returns to `None`; only the next rollcall resets them.) -/
theorem ended_meeting_has_empty_queue (s : Meeting) (hr : ReachableBy noForcedEnd s) :
    s.m_state = State.None → s.m_participants = [] := by
  induction hr with
  | start => intro _; rfl
  | step b s e _ hok ih => exact endedEmpty_step b s e hok ih

/-- C9 (as amended), at an example: the state `endedByNext`. -/
theorem ended_meeting_has_empty_queue_witness :
    ReachableBy noForcedEnd endedByNext ∧
    (endedByNext.m_state = State.None → endedByNext.m_participants = []) :=
  ⟨reachableFromBy_run noForcedEnd roomBot Meeting.init _ _
      (reachableFromBy_run noForcedEnd roomBot Meeting.init _ Meeting.init
        ReachableFromBy.start (by decide)) (by decide),
    ended_meeting_has_empty_queue endedByNext
      (reachableFromBy_run noForcedEnd roomBot Meeting.init _ _
        (reachableFromBy_run noForcedEnd roomBot Meeting.init _ Meeting.init
          ReachableFromBy.start (by decide)) (by decide))⟩

/-- C10. Unauthorized commands change nothing: a `next`, `skip` or `bump`
command of a requester who is neither the chair nor an operator, and a `done`
command of a requester who is no operator, leave every field of the session,
the timer included, as it was, in every state and for every argument list. -/
theorem unauthorized_changes_nothing (b : Bot) (s : Meeting) (cmd : CommandArgs)
    (h : ((cmd.command = "next" ∨ cmd.command = "skip" ∨ cmd.command = "bump") ∧
            cmd.user ≠ s.m_chair ∧ b.checkOps cmd = false) ∨
         (cmd.command = "done" ∧ b.checkOps cmd = false)) :
    (handleCommand b s cmd).1 = s := by
  rcases h with ⟨hc, hu, ho⟩ | ⟨hc, ho⟩
  · rcases hc with hc | hc | hc
    · rw [handleCommand_next b s cmd hc]
      exact cmdNext_noop b s cmd (Or.inr (by simp [authorized, hu, ho]))
    · rw [handleCommand_skip b s cmd hc]
      exact cmdSkip_state_cases (fun r => r = s) b s cmd rfl
        (fun _ ha => absurd ha (by simp [authorized, hu, ho]))
    · rw [handleCommand_bump b s cmd hc]
      exact cmdBump_state_cases (fun r => r = s) b s cmd rfl
        (fun _ ha => absurd ha (by simp [authorized, hu, ho]))
  · simp [handleCommand_done b s cmd hc, cmdDone, ho]

/-- C10, at an example: bob, neither chair nor operator, sends `skip alice`
in `midMeeting`. -/
theorem unauthorized_changes_nothing_witness :
    (handleCommand roomBot midMeeting (cmdOf "bob" "skip" ["alice"])).1 = midMeeting :=
  unauthorized_changes_nothing roomBot midMeeting (cmdOf "bob" "skip" ["alice"])
    (Or.inl ⟨by decide, by decide, by decide⟩)


/-! ## Further claims on single events -/

/-- C11. Wrong-phase commands change nothing: `next`, `skip` and `bump`
received in phase `None`, and `breakout` received in phase `None` or
`RollCall`, leave every field of the session, the timer included, as it was
and send exactly the short status line of the phase, whoever the requester
is. -/
theorem wrong_phase_changes_nothing (b : Bot) (s : Meeting) (cmd : CommandArgs)
    (h : ((cmd.command = "next" ∨ cmd.command = "skip" ∨ cmd.command = "bump") ∧
            s.m_state = State.None) ∨
         (cmd.command = "breakout" ∧
            (s.m_state = State.None ∨ s.m_state = State.RollCall))) :
    handleCommand b s cmd = (s, shortStatus s) ∧
    shortStatus s =
      [Output.text (if s.m_state = State.None then "No meeting in progress."
                    else "Doing the rollcall.")] := by
  rcases h with ⟨hc, hs⟩ | ⟨hc, hs⟩
  · rcases hc with hc | hc | hc
    · rw [handleCommand_next b s cmd hc]
      simp [cmdNext, hs, shortStatus]
    · rw [handleCommand_skip b s cmd hc]
      simp [cmdSkip, hs, shortStatus]
    · rw [handleCommand_bump b s cmd hc]
      simp [cmdBump, hs, shortStatus]
  · rw [handleCommand_breakout b s cmd hc]
    rcases hs with hs | hs <;> simp [cmdBreakout, hs, shortStatus]

/-- C11, at an example: bob sends `breakout` during the roll call of
`rollCalled`, and the operator sends `next` after the meeting has ended. -/
theorem wrong_phase_changes_nothing_witness :
    (handleCommand roomBot rollCalled (cmdOf "bob" "breakout" ["later"])
        = (rollCalled, shortStatus rollCalled) ∧
      shortStatus rollCalled =
        [Output.text (if rollCalled.m_state = State.None then "No meeting in progress."
                      else "Doing the rollcall.")]) ∧
    rollCalled.m_state = State.RollCall :=
  ⟨wrong_phase_changes_nothing roomBot rollCalled (cmdOf "bob" "breakout" ["later"])
      (Or.inr ⟨by decide, Or.inr (by decide)⟩),
    by decide⟩

/-- C12. Chat activity of a sender: when the phase is `None`, or the sender
is already pending or done, the queue is unchanged; otherwise the new queue
is the old queue without the chair, followed by the sender unless the sender
is the chair, followed by the chair.  In all cases the done set, the current
speaker, the chair, the phase and the breakouts are unchanged. -/
theorem handleMessage_queue (s : Meeting) (sender : String) :
    ((s.m_state = State.None ∨ sender ∈ s.m_participants ∨
        sender ∈ s.m_participantsDone) →
      (handleMessage s sender).m_participants = s.m_participants) ∧
    (¬ (s.m_state = State.None ∨ sender ∈ s.m_participants ∨
        sender ∈ s.m_participantsDone) →
      (handleMessage s sender).m_participants =
        removeAll s.m_participants s.m_chair ++
          (if sender = s.m_chair then [] else [sender]) ++ [s.m_chair]) ∧
    (handleMessage s sender).m_participantsDone = s.m_participantsDone ∧
    (handleMessage s sender).m_current = s.m_current ∧
    (handleMessage s sender).m_chair = s.m_chair ∧
    (handleMessage s sender).m_state = s.m_state ∧
    (handleMessage s sender).m_breakouts = s.m_breakouts := by
  obtain ⟨f1, f2, f3, f4, f5⟩ := handleMessage_frame s sender
  refine ⟨?_, ?_, f5, f3, f2, f1, f4⟩
  · intro h
    rw [handleMessage_participants, if_neg]
    intro hc
    rcases h with h | h | h
    · exact hc.1 h
    · exact hc.2.2 h
    · exact hc.2.1 h
  · intro h
    rw [handleMessage_participants, if_pos]
    · by_cases hsc : sender = s.m_chair
      · simp [removeAll, List.filter_append, hsc]
      · simp [removeAll, List.filter_append, hsc]
    · exact ⟨fun h1 => h (Or.inl h1), fun h1 => h (Or.inr (Or.inr h1)),
        fun h1 => h (Or.inr (Or.inl h1))⟩

/-- C13 fails as stated: in `endedByDone` the phase is `None` and the queue
is alice; the `next` command of alice, the chair of the ended meeting, is
authorized and pops nothing: bob stays the current speaker and alice stays
in the queue. -/
theorem next_in_phase_None_pops_nothing :
    Reachable endedByDone ∧
    endedByDone.m_state = State.None ∧
    endedByDone.m_participants = "alice" :: [] ∧
    endedByDone.m_current = "bob" ∧
    authorized roomBot endedByDone (cmdOf "alice" "next" []) ∧
    (handleCommand roomBot endedByDone (cmdOf "alice" "next" [])).1.m_current = "bob" ∧
    (handleCommand roomBot endedByDone (cmdOf "alice" "next" [])).1.m_current ≠ "alice" ∧
    (handleCommand roomBot endedByDone (cmdOf "alice" "next" [])).1.m_participants
      = ["alice"] ∧
    (handleCommand roomBot endedByDone (cmdOf "alice" "next" [])).1.m_participants ≠ [] :=
  ⟨reachableFromBy_run _ roomBot Meeting.init _ _ (reachable_run roomBot _)
      ⟨trivial, trivial⟩,
    by decide, by decide, by decide, by decide, by decide, by decide, by decide,
    by decide⟩

/-- C13 (as amended). An authorized `next` command received in phase
`InProgress` or `RollCall` on a state whose queue is `h :: t` pops the front:
afterwards the current speaker is `h` and the queue is `t`; from phase
`InProgress` the done set is the old done set with `h` added; from phase
`RollCall` the done set is `h` alone and the phase is `InProgress`; chair and
breakouts are unchanged. -/
theorem next_pops_front (b : Bot) (s : Meeting) (cmd : CommandArgs) (h : String)
    (t : List String) (hc : cmd.command = "next") (hauth : authorized b s cmd)
    (hp : s.m_participants = h :: t) :
    (s.m_state = State.InProgress →
      (handleCommand b s cmd).1.m_current = h ∧
      (handleCommand b s cmd).1.m_participants = t ∧
      (handleCommand b s cmd).1.m_participantsDone = insert h s.m_participantsDone ∧
      (handleCommand b s cmd).1.m_state = State.InProgress) ∧
    (s.m_state = State.RollCall →
      (handleCommand b s cmd).1.m_current = h ∧
      (handleCommand b s cmd).1.m_participants = t ∧
      (handleCommand b s cmd).1.m_participantsDone = {h} ∧
      (handleCommand b s cmd).1.m_state = State.InProgress) ∧
    (handleCommand b s cmd).1.m_chair = s.m_chair ∧
    (handleCommand b s cmd).1.m_breakouts = s.m_breakouts := by
  rw [handleCommand_next b s cmd hc]
  refine ⟨?_, ?_, ?_, ?_⟩
  · intro hs
    rw [cmdNext_state b s cmd (Or.inr hs) hauth, hp]
    simp [hs]
  · intro hs
    rw [cmdNext_state b s cmd (Or.inl hs) hauth, hp]
    simp [hs]
  · exact cmdNext_state_cases (fun r => r.m_chair = s.m_chair) b s cmd rfl
      (fun _ _ => rfl) (fun _ _ _ _ => rfl)
  · exact cmdNext_state_cases (fun r => r.m_breakouts = s.m_breakouts) b s cmd rfl
      (fun _ _ => rfl) (fun _ _ _ _ => rfl)

/-- C13 (as amended), at two examples: alice gives the first turn in
`rollCalled` (phase `RollCall`, queue bob, alice), and the second turn in
`threeInTurns` (phase `InProgress`, bob done, queue carol, alice). -/
theorem next_pops_front_witness :
    (rollCalled.m_state = State.RollCall ∧
      (handleCommand roomBot rollCalled (cmdOf "alice" "next" [])).1.m_current = "bob" ∧
      (handleCommand roomBot rollCalled (cmdOf "alice" "next" [])).1.m_participants
        = ["alice"] ∧
      (handleCommand roomBot rollCalled (cmdOf "alice" "next" [])).1.m_participantsDone
        = {"bob"} ∧
      (handleCommand roomBot rollCalled (cmdOf "alice" "next" [])).1.m_state
        = State.InProgress) ∧
    (threeInTurns.m_state = State.InProgress ∧
      threeInTurns.m_participantsDone = {"bob"} ∧
      (handleCommand roomBot threeInTurns (cmdOf "alice" "next" [])).1.m_current = "carol" ∧
      (handleCommand roomBot threeInTurns (cmdOf "alice" "next" [])).1.m_participants
        = ["alice"] ∧
      (handleCommand roomBot threeInTurns (cmdOf "alice" "next" [])).1.m_participantsDone
        = insert "carol" threeInTurns.m_participantsDone ∧
      (handleCommand roomBot threeInTurns (cmdOf "alice" "next" [])).1.m_state
        = State.InProgress) ∧
    (handleCommand roomBot threeInTurns (cmdOf "alice" "next" [])).1.m_chair
      = threeInTurns.m_chair ∧
    (handleCommand roomBot threeInTurns (cmdOf "alice" "next" [])).1.m_breakouts
      = threeInTurns.m_breakouts :=
  ⟨⟨by decide,
      (next_pops_front roomBot rollCalled (cmdOf "alice" "next" []) "bob" ["alice"]
        (by decide) (by decide) (by decide)).2.1 (by decide)⟩,
    ⟨by decide, by decide,
      (next_pops_front roomBot threeInTurns (cmdOf "alice" "next" []) "carol" ["alice"]
        (by decide) (by decide) (by decide)).1 (by decide)⟩,
    (next_pops_front roomBot threeInTurns (cmdOf "alice" "next" []) "carol" ["alice"]
      (by decide) (by decide) (by decide)).2.2.1,
    (next_pops_front roomBot threeInTurns (cmdOf "alice" "next" []) "carol" ["alice"]
      (by decide) (by decide) (by decide)).2.2.2⟩

/-- The `skip` loop, in closed form: the queue loses the resolved users, the
done set gains them, and one announcement per resolved argument is added. -/
theorem skipLoop_closed (b : Bot) :
    ∀ (args : List String) (acc : Meeting × List Output),
      (args.foldl (skipArg b) acc).1.m_participants =
        acc.1.m_participants.filter (fun x => decide (x ∉ resolved b args)) ∧
      (args.foldl (skipArg b) acc).1.m_participantsDone =
        acc.1.m_participantsDone ∪ (resolved b args).toFinset ∧
      (args.foldl (skipArg b) acc).2 = acc.2 ++ (resolved b args).map skipNotice := by
  intro args
  induction args with
  | nil => intro acc; simp [resolved]
  | cons x xs ih =>
    intro acc
    rw [List.foldl_cons]
    obtain ⟨i1, i2, i3⟩ := ih (skipArg b acc x)
    rw [i1, i2, i3]
    by_cases h : b.userLookup x = ""
    · have hr : resolved b (x :: xs) = resolved b xs := by
        simp [resolved, h]
      simp [skipArg, h, hr]
    · have hr : resolved b (x :: xs) = b.userLookup x :: resolved b xs := by
        simp [resolved, h]
      rw [hr]
      simp only [skipArg, ne_eq, h, not_false_eq_true, if_true]
      refine ⟨?_, ?_, ?_⟩
      · simp only [removeAll, List.filter_filter]
        congr 1
        funext y
        simp [and_comm]
      · ext y
        simp only [Finset.mem_union, Finset.mem_insert, List.toFinset_cons]
        tauto
      · simp [skipNotice]

/-- C14. An authorized `skip` command in phase `RollCall` or `InProgress`,
with any argument list: the queue afterwards is the old queue, in its old
order, without the users the arguments resolve to; the done set is the old
one with those users added; one announcement is sent per argument that
resolves, in argument order, and nothing else; no other field changes.  So
every user some argument resolves to is out of the queue and in the done
set, and a list without a resolvable argument changes and sends nothing. -/
theorem skip_removes_resolved (b : Bot) (s : Meeting) (cmd : CommandArgs)
    (hc : cmd.command = "skip")
    (hphase : s.m_state = State.RollCall ∨ s.m_state = State.InProgress)
    (hauth : authorized b s cmd) :
    (handleCommand b s cmd).1 =
      { s with
          m_participants :=
            s.m_participants.filter (fun x => decide (x ∉ resolved b cmd.args))
          m_participantsDone := s.m_participantsDone ∪ (resolved b cmd.args).toFinset } ∧
    (handleCommand b s cmd).2 = (resolved b cmd.args).map skipNotice ∧
    (∀ u ∈ cmd.args, ∀ user, resolvesTo b u user →
      user ∉ (handleCommand b s cmd).1.m_participants ∧
      user ∈ (handleCommand b s cmd).1.m_participantsDone) ∧
    ((∀ u ∈ cmd.args, b.userLookup u = "") → handleCommand b s cmd = (s, [])) := by
  have hcmd : handleCommand b s cmd = cmd.args.foldl (skipArg b) (s, []) := by
    rw [handleCommand_skip b s cmd hc]
    unfold cmdSkip
    rw [if_neg (not_not.2 hphase), if_pos hauth]
  obtain ⟨k1, k2, k3⟩ := skipLoop_closed b cmd.args (s, [])
  obtain ⟨f1, f2, f3, f4, f5⟩ := skipLoop_frame b cmd.args (s, [])
  have hstate : (handleCommand b s cmd).1 =
      { s with
          m_participants :=
            s.m_participants.filter (fun x => decide (x ∉ resolved b cmd.args))
          m_participantsDone := s.m_participantsDone ∪ (resolved b cmd.args).toFinset } := by
    rw [hcmd]
    cases hr : (cmd.args.foldl (skipArg b) (s, [])).1
    rw [hr] at k1 k2 f1 f2 f3 f4 f5
    simp only at k1 k2 f1 f2 f3 f4 f5
    simp [k1, k2, f1, f2, f3, f4, f5]
  have hout : (handleCommand b s cmd).2 = (resolved b cmd.args).map skipNotice := by
    rw [hcmd, k3]; rfl
  refine ⟨hstate, hout, ?_, ?_⟩
  · intro u hu user hres
    have hmem : user ∈ resolved b cmd.args := by
      unfold resolved
      rw [List.mem_filter]
      exact ⟨List.mem_map.2 ⟨u, hu, hres.1⟩, by simpa using hres.2⟩
    rw [hstate]
    constructor
    · intro hm
      have := (List.mem_filter.1 hm).2
      simp at this
      exact this hmem
    · exact Finset.mem_union_right _ (List.mem_toFinset.2 hmem)
  · intro hall
    have hnil : resolved b cmd.args = [] := by
      unfold resolved
      rw [List.filter_eq_nil_iff]
      intro a ha
      obtain ⟨u, hu, rfl⟩ := List.mem_map.1 ha
      simp [hall u hu]
    apply Prod.ext
    · rw [hstate, hnil]
      simp
    · rw [hout, hnil]
      rfl

/-- C14, at an example: in `threeInTurns` (queue carol, alice) alice skips
with the arguments dave, carol, nobody, carol; two of them resolve. -/
theorem skip_removes_resolved_witness :
    resolved roomBot ["dave", "carol", "nobody", "carol"] = ["carol", "carol"] ∧
    ((handleCommand roomBot threeInTurns
        (cmdOf "alice" "skip" ["dave", "carol", "nobody", "carol"])).1 =
      { threeInTurns with
          m_participants :=
            threeInTurns.m_participants.filter
              (fun x => decide (x ∉ resolved roomBot
                (cmdOf "alice" "skip" ["dave", "carol", "nobody", "carol"]).args))
          m_participantsDone :=
            threeInTurns.m_participantsDone ∪
              (resolved roomBot
                (cmdOf "alice" "skip" ["dave", "carol", "nobody", "carol"]).args).toFinset } ∧
    (handleCommand roomBot threeInTurns
        (cmdOf "alice" "skip" ["dave", "carol", "nobody", "carol"])).2 =
      (resolved roomBot
        (cmdOf "alice" "skip" ["dave", "carol", "nobody", "carol"]).args).map skipNotice ∧
    (∀ u ∈ (cmdOf "alice" "skip" ["dave", "carol", "nobody", "carol"]).args,
      ∀ user, resolvesTo roomBot u user →
      user ∉ (handleCommand roomBot threeInTurns
        (cmdOf "alice" "skip" ["dave", "carol", "nobody", "carol"])).1.m_participants ∧
      user ∈ (handleCommand roomBot threeInTurns
        (cmdOf "alice" "skip" ["dave", "carol", "nobody", "carol"])).1.m_participantsDone) ∧
    ((∀ u ∈ (cmdOf "alice" "skip" ["dave", "carol", "nobody", "carol"]).args,
        roomBot.userLookup u = "") →
      handleCommand roomBot threeInTurns
        (cmdOf "alice" "skip" ["dave", "carol", "nobody", "carol"]) = (threeInTurns, []))) :=
  ⟨by decide,
    skip_removes_resolved roomBot threeInTurns
      (cmdOf "alice" "skip" ["dave", "carol", "nobody", "carol"])
      (by decide) (by decide) (by decide)⟩

/-- C15. A `breakout` command received in phase `InProgress`, from any
requester, appends one note, the arguments joined by single spaces, at the
end of the breakouts, and changes no other field of the session. -/
theorem breakout_appends_note (b : Bot) (s : Meeting) (cmd : CommandArgs)
    (hc : cmd.command = "breakout") (hs : s.m_state = State.InProgress) :
    (handleCommand b s cmd).1 =
      { s with m_breakouts := s.m_breakouts ++ [join " " cmd.args] } := by
  rw [handleCommand_breakout b s cmd hc, cmdBreakout_state, if_pos hs]

/-- C15, at an example: bob, neither chair nor operator, registers a second
breakout in `midMeeting`. -/
theorem breakout_appends_note_witness :
    (handleCommand roomBot midMeeting (cmdOf "bob" "breakout" ["room", "two", "at", "noon"])).1
      = { midMeeting with
            m_breakouts :=
              midMeeting.m_breakouts ++
                [join " " (cmdOf "bob" "breakout" ["room", "two", "at", "noon"]).args] } ∧
    midMeeting.m_breakouts ++
        [join " " (cmdOf "bob" "breakout" ["room", "two", "at", "noon"]).args]
      = ["budget talk", "room two at noon"] ∧
    roomBot.checkOps (cmdOf "bob" "breakout" ["room", "two", "at", "noon"]) = false ∧
    "bob" ≠ midMeeting.m_chair :=
  ⟨breakout_appends_note roomBot midMeeting
      (cmdOf "bob" "breakout" ["room", "two", "at", "noon"]) (by decide) (by decide),
    by decide, by decide, by decide⟩

/-- C16. The expiry of the timer.  In phase `RollCall` the reminder names
the present users that are neither pending nor done, in roster order, and
nothing is sent when there is no such user; in phase `InProgress` the
reminder names the current speaker; in phase `None` nothing is sent.  The
event sends what `timeout` sends and leaves every field of the session as it
was; the timer, having fired, is not started again. -/
theorem timeout_reminds (b : Bot) (s : Meeting) :
    (s.m_state = State.RollCall →
      timeout b s =
        if absentees b s = [] then []
        else [Output.list ("Roll-call for" :: absentees b s)]) ∧
    (s.m_state = State.InProgress →
      timeout b s = [Output.list [s.m_current, "are you with us?"]]) ∧
    (s.m_state = State.None → timeout b s = []) ∧
    (s.m_waiting ≠ none → (step b s Event.timerExpiry).2 = timeout b s) ∧
    (step b s Event.timerExpiry).1 = { s with m_waiting := none } := by
  refine ⟨?_, ?_, ?_, ?_, step_timerExpiry_frame b s⟩
  · intro hs
    unfold timeout absentees
    rw [hs]
    simp only [List.length_cons]
    split
    · rename_i h
      rw [if_neg]
      intro hnil
      rw [hnil] at h
      simp at h
    · rename_i h
      rw [if_pos]
      by_contra hne
      apply h
      have : 0 < (List.filter
          (fun u => decide (u ∉ s.m_participants ∧ u ∉ s.m_participantsDone))
          b.userIds).length := List.length_pos.2 hne
      omega
  · intro hs
    unfold timeout
    rw [hs]
  · intro hs
    unfold timeout
    rw [hs]
  · intro hw
    unfold step
    cases hq : s.m_waiting with
    | none => exact absurd hq hw
    | some n =>
      simp only
      unfold timeout
      rfl

/-- C17. In every reachable state of the meeting the pending queue holds no
identity more than once. -/
theorem pending_has_no_repetition (s : Meeting) (hr : Reachable s) :
    s.m_participants.Nodup :=
  (disjointButChair_reachable s hr).1

/-- C17, at an example: the state `currentBumped`, reached with a `bump` of
the current speaker. -/
theorem pending_has_no_repetition_witness :
    currentBumped.m_participants = ["bob", "carol", "alice"] ∧
    currentBumped.m_participants.Nodup :=
  ⟨by decide,
    pending_has_no_repetition currentBumped
      (reachableFromBy_run _ roomBot Meeting.init _ threeInTurns (reachable_run roomBot _)
        ⟨trivial, trivial⟩)⟩

/-! ## The current speaker and the queue -/

/-- Reachability under a restriction is reachability. -/
theorem reachable_of_reachableBy (ok : Bot → Meeting → Event → Prop) (s : Meeting)
    (hr : ReachableBy ok s) : Reachable s := by
  induction hr with
  | start => exact ReachableFromBy.start
  | step b s e _ _ ih => exact ReachableFromBy.step b s e ih trivial

/-- Every event other than a `bump` of the current speaker keeps the current
speaker empty during the roll call and in the done set during the turns. -/
theorem currentHeard_step (b : Bot) (s : Meeting) (e : Event) (hok : noCurrentBump b s e)
    (H : CurrentHeard s) : CurrentHeard (step b s e).1 := by
  cases e with
  | command cmd =>
    show CurrentHeard (handleCommand b s cmd).1
    refine handleCommand_state_cases CurrentHeard b s cmd H ?_ ?_ ?_ ?_ ?_ ?_
    · intro _
      rw [cmdRollcall_state]
      split
      · exact ⟨fun _ => rfl, fun h => State.noConfusion h⟩
      · exact H
    · intro _
      refine cmdNext_state_cases CurrentHeard b s cmd H ?_ ?_
      · intro _ _
        exact ⟨fun h => State.noConfusion h, fun h => State.noConfusion h⟩
      · intro h t _ _
        exact ⟨fun h1 => State.noConfusion h1, fun _ => Finset.mem_insert_self _ _⟩
    · intro _
      refine cmdSkip_state_cases CurrentHeard b s cmd H ?_
      intro _ _
      obtain ⟨f1, -, f3, -, -⟩ := skipLoop_frame b cmd.args (s, [])
      have key := foldl_preserves (skipArg b)
        (fun r => s.m_state = State.InProgress → s.m_current ∈ r.1.m_participantsDone)
        cmd.args (s, []) H.2 (by
          intro a x _ ha hs
          by_cases h : b.userLookup x = ""
          · simpa [skipArg, h] using ha hs
          · simp only [skipArg, ne_eq, h, not_false_eq_true, if_true]
            exact Finset.mem_insert_of_mem (ha hs))
      unfold CurrentHeard
      rw [f1, f3]
      exact ⟨H.1, key⟩
    · intro hc
      refine cmdBump_state_cases CurrentHeard b s cmd H ?_
      intro _ _
      obtain ⟨f1, -, f3, -, -⟩ := bumpLoop_frame b cmd.args (s, [])
      have key := foldl_preserves (bumpArg b)
        (fun r => s.m_state = State.InProgress → s.m_current ∈ r.1.m_participantsDone)
        cmd.args (s, []) H.2 (by
          intro a x hx ha hs
          by_cases h : b.userLookup x = ""
          · simpa [bumpArg, h] using ha hs
          · simp only [bumpArg, ne_eq, h, not_false_eq_true, if_true]
            refine Finset.mem_erase.2 ⟨?_, ha hs⟩
            intro he
            exact hok hc x hx ⟨he.symm, fun h0 => h (he ▸ h0)⟩)
      unfold CurrentHeard
      rw [f1, f3]
      exact ⟨H.1, key⟩
    · intro _
      rw [cmdBreakout_state]
      split <;> exact H
    · intro _
      rw [cmdDone_state]
      split
      · exact ⟨fun h => State.noConfusion h, fun h => State.noConfusion h⟩
      · exact H
  | message sender =>
    show CurrentHeard (handleMessage s sender)
    obtain ⟨f1, -, f3, -, f5⟩ := handleMessage_frame s sender
    unfold CurrentHeard
    rw [f1, f3, f5]
    exact H
  | timerExpiry =>
    rw [step_timerExpiry_frame]
    exact H

/-- In every state reachable without a `bump` of the current speaker, nobody
is the current speaker during the roll call, and during the turns the current
speaker is in the done set. -/
theorem currentHeard_reachable (s : Meeting) (hr : ReachableBy noCurrentBump s) :
    CurrentHeard s := by
  induction hr with
  | start => exact ⟨fun _ => rfl, fun h => State.noConfusion h⟩
  | step b s e _ hok ih => exact currentHeard_step b s e hok ih

/-- C18 fails as stated, in two reachable states of phase `InProgress`.  In
`currentBumped` the chair has bumped bob, the current speaker, who is now
also the head of the queue.  In `chairSpokeThenBob`, reached without any
`bump`, alice, chair and current speaker, has been put back at the end of the
queue by the message of bob. -/
theorem current_speaker_can_be_pending :
    (Reachable currentBumped ∧
      currentBumped.m_state = State.InProgress ∧
      currentBumped.m_current = "bob" ∧
      currentBumped.m_chair = "alice" ∧
      currentBumped.m_participants = ["bob", "carol", "alice"] ∧
      currentBumped.m_current ∈ currentBumped.m_participants) ∧
    (ReachableBy noCurrentBump chairSpokeThenBob ∧
      chairSpokeThenBob.m_state = State.InProgress ∧
      chairSpokeThenBob.m_current = "alice" ∧
      chairSpokeThenBob.m_chair = "alice" ∧
      chairSpokeThenBob.m_participants = ["bob", "alice"] ∧
      chairSpokeThenBob.m_current ∈ chairSpokeThenBob.m_participants) :=
  ⟨⟨reachableFromBy_run _ roomBot Meeting.init _ threeInTurns (reachable_run roomBot _)
        ⟨trivial, trivial⟩,
      by decide, by decide, by decide, by decide, by decide⟩,
    ⟨reachableFromBy_run noCurrentBump roomBot Meeting.init _ Meeting.init
        ReachableFromBy.start (by decide),
      by decide, by decide, by decide, by decide, by decide⟩⟩

/-- C18 (as amended). In every state reachable by events among which no
`bump` command has an argument that resolves to the current speaker, and with
a phase other than `None`: the current speaker, when there is one (the field
is not empty) and it is not the chair, is not an element of the pending
queue. -/
theorem current_not_pending (s : Meeting) (hr : ReachableBy noCurrentBump s)
    (hs : s.m_state ≠ State.None) (hcur : s.m_current ≠ "")
    (hch : s.m_current ≠ s.m_chair) :
    s.m_current ∉ s.m_participants := by
  have hH := currentHeard_reachable s hr
  have hD := disjointButChair_reachable s (reachable_of_reachableBy _ s hr)
  intro hm
  cases hst : s.m_state with
  | None => exact hs hst
  | RollCall => exact hcur (hH.1 hst)
  | InProgress => exact hch (hD.2 _ hm (hH.2 hst))

/-- C18 (as amended), at an example: in `midMeeting` bob is the current
speaker, alice is the chair, and the queue holds alice only. -/
theorem current_not_pending_witness :
    ReachableBy noCurrentBump midMeeting ∧
    midMeeting.m_current = "bob" ∧
    midMeeting.m_current ∉ midMeeting.m_participants :=
  ⟨reachableFromBy_run noCurrentBump roomBot Meeting.init _ Meeting.init
      ReachableFromBy.start (by decide),
    by decide,
    current_not_pending midMeeting
      (reachableFromBy_run noCurrentBump roomBot Meeting.init _ Meeting.init
        ReachableFromBy.start (by decide))
      (by decide) (by decide) (by decide)⟩

/-! ## The cookie ledger -/

namespace Coffee

theorem Private.find_snd (p : Private) (user : String) :
    (p.find user).2 = p.statsOf user := by
  unfold Private.find Private.statsOf
  cases h : p.m_stats.lookup user <;> simp

theorem Private.find_jar (p : Private) (user : String) :
    (p.find user).1.m_cookiejar = p.m_cookiejar := by
  unfold Private.find
  cases h : p.m_stats.lookup user <;> simp

theorem Private.find_lookup (p : Private) (user : String) :
    (p.find user).1.m_stats.lookup user = some (p.statsOf user) := by
  unfold Private.find Private.statsOf
  cases h : p.m_stats.lookup user <;> simp [h]

theorem Private.find_lookup_ne (p : Private) (user v : String) (hv : v ≠ user) :
    (p.find user).1.m_stats.lookup v = p.m_stats.lookup v := by
  unfold Private.find
  cases h : p.m_stats.lookup user <;> simp [AList.lookup_insert_ne hv]

/-- The call `find` changes no counter: it only files fresh counters for a
user without an entry. -/
theorem Private.find_statsOf (p : Private) (user v : String) :
    (p.find user).1.statsOf v = p.statsOf v := by
  by_cases hv : v = user
  · subst hv
    unfold Private.statsOf
    rw [Private.find_lookup]
    rfl
  · unfold Private.statsOf
    rw [Private.find_lookup_ne p user v hv]

theorem Private.put_statsOf (p : Private) (user : String) (c : CoffeeStats) :
    (p.put user c).statsOf user = c := by
  simp [Private.put, Private.statsOf]

theorem Private.put_lookup_ne (p : Private) (user v : String) (c : CoffeeStats)
    (hv : v ≠ user) : (p.put user c).m_stats.lookup v = p.m_stats.lookup v := by
  simp [Private.put, AList.lookup_insert_ne hv]

theorem Private.put_statsOf_ne (p : Private) (user v : String) (c : CoffeeStats)
    (hv : v ≠ user) : (p.put user c).statsOf v = p.statsOf v := by
  unfold Private.statsOf
  rw [Private.put_lookup_ne p user v c hv]

theorem Private.put_jar (p : Private) (user : String) (c : CoffeeStats) :
    (p.put user c).m_cookiejar = p.m_cookiejar := rfl

/-- A sequence of calls leads from a ledger the program can build to a
ledger the program can build. -/
theorem Private.reachable_applyAll (ops : List Op) :
    ∀ (p : Private), p.Reachable → (p.applyAll ops).Reachable := by
  induction ops with
  | nil => intro p hp; exact hp
  | cons op ops ih =>
    intro p hp
    exact ih (p.apply op) (Private.Reachable.step p op hp)

/-! ### The arithmetic of `int` -/

theorem CInt.wrap_eq (x : Int) (h1 : -2147483648 ≤ x) (h2 : x ≤ 2147483647) :
    CInt.wrap x = x := by
  unfold CInt.wrap
  omega

/-- Below the largest `int` the operator `++` adds one. -/
theorem CInt.succ_val (c : CInt) (h : c.val < 2147483647) : c.succ.val = c.val + 1 := by
  have := c.lo
  exact CInt.wrap_eq _ (by omega) (by omega)

/-- At the largest `int` the operator `++` gives the smallest `int`. -/
theorem CInt.succ_val_max (c : CInt) (h : c.val = 2147483647) :
    c.succ.val = -2147483648 := by
  show CInt.wrap (c.val + 1) = -2147483648
  rw [h]
  decide

/-- Above the smallest `int` the operator `--` subtracts one. -/
theorem CInt.pred_val (c : CInt) (h : -2147483648 < c.val) : c.pred.val = c.val - 1 := by
  have := c.hi
  exact CInt.wrap_eq _ (by omega) (by omega)

/-- C19 fails as stated: in `fullHands` alice holds 2147483647 cookies, the
largest `int`; `giveCookie` answers true, and her count is -2147483648
afterwards, not one higher. -/
theorem giveCookie_wraps_full_counter :
    fullHands.Reachable ∧
    fullHands.m_cookiejar.val = 12 ∧
    (fullHands.statsOf "alice").m_cookie.val = 2147483647 ∧
    (fullHands.giveCookie "alice").2 = true ∧
    ((fullHands.giveCookie "alice").1.statsOf "alice").m_cookie.val = -2147483648 ∧
    ((fullHands.giveCookie "alice").1.statsOf "alice").m_cookie.val
      ≠ (fullHands.statsOf "alice").m_cookie.val + 1 :=
  ⟨Private.reachable_applyAll _ Private.init Private.Reachable.init,
    by decide, by decide, by decide, by decide, by decide⟩

/-- C19 (as amended). The call `giveCookie(user)` answers true exactly when
the jar holds at least one cookie.  When it answers true, the jar holds one
cookie less, the cookie counter of the user has gone through `++`, which
makes it one higher when it was below 2147483647, and the other counters of
the user and the entries of all other users are as before.  When it answers
false, the ledger is unchanged. -/
theorem giveCookie_takes_from_jar (p : Private) (user : String) :
    ((p.giveCookie user).2 = true ↔ 1 ≤ p.m_cookiejar.val) ∧
    ((p.giveCookie user).2 = true →
      (p.giveCookie user).1.m_cookiejar.val = p.m_cookiejar.val - 1 ∧
      (p.giveCookie user).1.statsOf user =
        { p.statsOf user with m_cookie := (p.statsOf user).m_cookie.succ } ∧
      ((p.statsOf user).m_cookie.val < 2147483647 →
        ((p.giveCookie user).1.statsOf user).m_cookie.val =
          (p.statsOf user).m_cookie.val + 1) ∧
      ∀ v, v ≠ user →
        (p.giveCookie user).1.m_stats.lookup v = p.m_stats.lookup v) ∧
    ((p.giveCookie user).2 = false → (p.giveCookie user).1 = p) := by
  by_cases hj : p.m_cookiejar.val > 0
  · have hr : p.giveCookie user =
        ({ (p.find user).1 with m_cookiejar := (p.find user).1.m_cookiejar.pred }.put user
            { (p.find user).2 with m_cookie := (p.find user).2.m_cookie.succ }, true) := by
      unfold Private.giveCookie
      rw [if_pos hj]
    have hs : ({ (p.find user).1 with
        m_cookiejar := (p.find user).1.m_cookiejar.pred }.put user
          { (p.find user).2 with m_cookie := (p.find user).2.m_cookie.succ }).statsOf user =
        { p.statsOf user with m_cookie := (p.statsOf user).m_cookie.succ } := by
      rw [Private.put_statsOf, Private.find_snd]
    rw [hr]
    refine ⟨⟨fun _ => hj, fun _ => rfl⟩, fun _ => ⟨?_, hs, ?_, ?_⟩,
      fun h => Bool.noConfusion h⟩
    · show ((p.find user).1.m_cookiejar.pred).val = p.m_cookiejar.val - 1
      rw [Private.find_jar]
      exact CInt.pred_val _ (by omega)
    · intro hb
      show (({ (p.find user).1 with
        m_cookiejar := (p.find user).1.m_cookiejar.pred }.put user
          { (p.find user).2 with
            m_cookie := (p.find user).2.m_cookie.succ }).statsOf user).m_cookie.val = _
      rw [hs]
      exact CInt.succ_val _ hb
    · intro v hv
      show ({ (p.find user).1 with
        m_cookiejar := (p.find user).1.m_cookiejar.pred }.put user
          { (p.find user).2 with
            m_cookie := (p.find user).2.m_cookie.succ }).m_stats.lookup v = _
      rw [Private.put_lookup_ne _ user v _ hv]
      exact Private.find_lookup_ne p user v hv
  · have hr : p.giveCookie user = (p, false) := by
      unfold Private.giveCookie
      rw [if_neg hj]
    rw [hr]
    refine ⟨⟨fun h => Bool.noConfusion h, fun h => absurd h hj⟩,
      fun h => Bool.noConfusion h, fun _ => rfl⟩

/-- C19 (as amended), at examples: bob takes a cookie from the jar of
`twoCookies`, where he holds one, and from the empty jar of `emptyJar`. -/
theorem giveCookie_takes_from_jar_witness :
    twoCookies.m_cookiejar.val = 10 ∧
    (twoCookies.statsOf "bob").m_cookie.val = 1 ∧
    (twoCookies.giveCookie "bob").2 = true ∧
    (twoCookies.giveCookie "bob").1.m_cookiejar.val = 9 ∧
    ((twoCookies.giveCookie "bob").1.statsOf "bob").m_cookie.val
      = (twoCookies.statsOf "bob").m_cookie.val + 1 ∧
    (emptyJar.giveCookie "bob").2 = false ∧
    (emptyJar.giveCookie "bob").1 = emptyJar :=
  ⟨by decide, by decide, by decide, by decide,
    ((giveCookie_takes_from_jar twoCookies "bob").2.1 (by decide)).2.2.1 (by decide),
    by decide,
    (giveCookie_takes_from_jar emptyJar "bob").2.2 (by decide)⟩

/-- In a well keyed ledger the counters `find` answers for a user carry that
user. -/
theorem Private.statsOf_user (p : Private) (hw : p.WellKeyed) (user : String) :
    (p.statsOf user).m_user = user := by
  unfold Private.statsOf
  cases h : p.m_stats.lookup user with
  | none => rfl
  | some c =>
    have hm : (⟨user, c⟩ : Sigma (fun _ : String => CoffeeStats)) ∈ p.m_stats.entries :=
      AList.mem_lookup_iff.1 h
    exact hw _ hm

/-- Filing counters that carry the user keeps the ledger well keyed. -/
theorem Private.put_wellKeyed (p : Private) (hw : p.WellKeyed) (user : String)
    (c : CoffeeStats) (hc : c.m_user = user) : (p.put user c).WellKeyed := by
  intro e he
  unfold Private.put at he
  simp only [AList.insert_entries] at he
  rcases List.mem_cons.1 he with h | h
  · rw [h]; exact hc
  · exact hw e ((List.kerase_sublist user p.m_stats.entries).subset h)

theorem Private.find_wellKeyed (p : Private) (hw : p.WellKeyed) (user : String) :
    (p.find user).1.WellKeyed := by
  unfold Private.find
  cases h : p.m_stats.lookup user with
  | some c => exact hw
  | none => exact Private.put_wellKeyed p hw user (CoffeeStats.new user) rfl

/-- Every call keeps the ledger well keyed. -/
theorem Private.apply_wellKeyed (p : Private) (hw : p.WellKeyed) (op : Op) :
    (p.apply op).WellKeyed := by
  have hf : ∀ u, ((p.find u).2).m_user = u := fun u => by
    rw [Private.find_snd]; exact Private.statsOf_user p hw u
  cases op with
  | coffee user =>
    exact Private.put_wellKeyed _ (Private.find_wellKeyed p hw user) user _ (by exact hf user)
  | tea user =>
    exact Private.put_wellKeyed _ (Private.find_wellKeyed p hw user) user _ (by exact hf user)
  | giveCookie user =>
    show (p.giveCookie user).1.WellKeyed
    unfold Private.giveCookie
    split
    · exact Private.put_wellKeyed _ (Private.find_wellKeyed p hw user) user _ (by exact hf user)
    · exact hw
  | transferCookie user other =>
    show (p.transferCookie user other).1.WellKeyed
    have h1 := Private.find_wellKeyed p hw user
    have h2 := Private.find_wellKeyed _ h1 other
    have ho : (((p.find user).1.find other).2).m_user = other := by
      rw [Private.find_snd]; exact Private.statsOf_user _ h1 other
    unfold Private.transferCookie
    simp only
    split
    · exact h2
    · split
      · exact Private.put_wellKeyed _ (Private.put_wellKeyed _ h2 user _ (by exact hf user)) other _ (by exact ho)
      · exact h2
  | eatCookie user =>
    show (p.eatCookie user).1.WellKeyed
    unfold Private.eatCookie
    simp only
    split
    · exact Private.put_wellKeyed _ (Private.find_wellKeyed p hw user) user _ (by exact hf user)
    · exact Private.find_wellKeyed p hw user
  | addCookie =>
    show p.addCookie.WellKeyed
    unfold Private.addCookie
    split
    · exact hw
    · exact hw
  | loadEntry user coffee tea cookie eated =>
    exact Private.put_wellKeyed _ (Private.find_wellKeyed p hw user) user _ (by exact hf user)

/-- Every ledger the program can build is well keyed. -/
theorem Private.wellKeyed_reachable (p : Private) (hr : p.Reachable) : p.WellKeyed := by
  induction hr with
  | init => intro e he; simp [Private.init] at he
  | step p op _ ih => exact Private.apply_wellKeyed p ih op

/-- C20 fails as stated: in `richBob` alice holds one cookie and bob
2147483647, the largest `int`; alice gives bob her cookie, `transferCookie`
answers true, and the count of bob is -2147483648 afterwards, not one
higher. -/
theorem transferCookie_wraps_full_counter :
    richBob.Reachable ∧
    richBob.WellKeyed ∧
    (richBob.statsOf "alice").m_cookie.val = 1 ∧
    (richBob.statsOf "bob").m_cookie.val = 2147483647 ∧
    (richBob.transferCookie "alice" "bob").2 = true ∧
    ((richBob.transferCookie "alice" "bob").1.statsOf "alice").m_cookie.val = 0 ∧
    ((richBob.transferCookie "alice" "bob").1.statsOf "bob").m_cookie.val = -2147483648 ∧
    ((richBob.transferCookie "alice" "bob").1.statsOf "bob").m_cookie.val
      ≠ (richBob.statsOf "bob").m_cookie.val + 1 :=
  ⟨Private.reachable_applyAll _ Private.init Private.Reachable.init,
    by decide, by decide, by decide, by decide, by decide, by decide, by decide⟩

/-- C20 (as amended). The call `transferCookie(user, other)`.  With
`user ≠ other`, on a ledger in which every entry carries the user it is filed
under (every ledger the program builds is such a ledger, see
`Private.wellKeyed_reachable`), it answers true exactly when `user` holds at
least one cookie; then the cookie count of `user` is one lower, the cookie
counter of `other` has gone through `++`, which makes it one higher when it
was below 2147483647, and no other counter has changed; when it answers false
no counter has changed.  With `user = other` it answers true on every ledger,
also when `user` holds no cookie, and no counter has changed.  The jar is
never changed. -/
theorem transferCookie_moves_one_cookie (p : Private) (user other : String) :
    (user ≠ other → p.WellKeyed →
      ((p.transferCookie user other).2 = true ↔ 1 ≤ (p.statsOf user).m_cookie.val) ∧
      ((p.transferCookie user other).2 = true →
        (p.transferCookie user other).1.statsOf user =
          { p.statsOf user with m_cookie := (p.statsOf user).m_cookie.pred } ∧
        ((p.transferCookie user other).1.statsOf user).m_cookie.val =
          (p.statsOf user).m_cookie.val - 1 ∧
        (p.transferCookie user other).1.statsOf other =
          { p.statsOf other with m_cookie := (p.statsOf other).m_cookie.succ } ∧
        ((p.statsOf other).m_cookie.val < 2147483647 →
          ((p.transferCookie user other).1.statsOf other).m_cookie.val =
            (p.statsOf other).m_cookie.val + 1) ∧
        ∀ v, v ≠ user → v ≠ other →
          (p.transferCookie user other).1.statsOf v = p.statsOf v) ∧
      ((p.transferCookie user other).2 = false →
        ∀ v, (p.transferCookie user other).1.statsOf v = p.statsOf v)) ∧
    (user = other →
      (p.transferCookie user other).2 = true ∧
      ∀ v, (p.transferCookie user other).1.statsOf v = p.statsOf v) ∧
    (p.transferCookie user other).1.m_cookiejar = p.m_cookiejar := by
  have hu : (p.find user).2 = p.statsOf user := Private.find_snd p user
  have ho : ((p.find user).1.find other).2 = p.statsOf other := by
    rw [Private.find_snd, Private.find_statsOf]
  have hs2 : ∀ v, ((p.find user).1.find other).1.statsOf v = p.statsOf v := fun v => by
    rw [Private.find_statsOf, Private.find_statsOf]
  have hj2 : ((p.find user).1.find other).1.m_cookiejar = p.m_cookiejar := by
    rw [Private.find_jar, Private.find_jar]
  refine ⟨?_, ?_, ?_⟩
  · intro hne hw
    have hkey : ¬ ((p.find user).2.m_user = ((p.find user).1.find other).2.m_user) := by
      rw [hu, ho, Private.statsOf_user p hw user, Private.statsOf_user p hw other]
      exact hne
    by_cases hc : (p.find user).2.m_cookie.val > 0
    · have hr : p.transferCookie user other =
          ((((p.find user).1.find other).1.put user
              { (p.find user).2 with m_cookie := (p.find user).2.m_cookie.pred }).put other
              { ((p.find user).1.find other).2 with
                  m_cookie := ((p.find user).1.find other).2.m_cookie.succ },
            true) := by
        unfold Private.transferCookie
        simp only
        rw [if_neg hkey, if_pos hc]
      have hsu : (p.transferCookie user other).1.statsOf user =
          { p.statsOf user with m_cookie := (p.statsOf user).m_cookie.pred } := by
        rw [hr]
        show ((((p.find user).1.find other).1.put user _).put other _).statsOf user = _
        rw [Private.put_statsOf_ne _ other user _ hne, Private.put_statsOf, hu]
      have hso : (p.transferCookie user other).1.statsOf other =
          { p.statsOf other with m_cookie := (p.statsOf other).m_cookie.succ } := by
        rw [hr]
        show ((((p.find user).1.find other).1.put user _).put other _).statsOf other = _
        rw [Private.put_statsOf, ho]
      rw [hu] at hc
      refine ⟨⟨fun _ => hc, fun _ => by rw [hr]⟩, fun _ => ⟨hsu, ?_, hso, ?_, ?_⟩, ?_⟩
      · rw [hsu]
        exact CInt.pred_val _ (by omega)
      · intro hb
        rw [hso]
        exact CInt.succ_val _ hb
      · intro v hvu hvo
        rw [hr]
        show ((((p.find user).1.find other).1.put user _).put other _).statsOf v = _
        rw [Private.put_statsOf_ne _ other v _ hvo, Private.put_statsOf_ne _ user v _ hvu]
        exact hs2 v
      · intro h
        rw [hr] at h
        exact Bool.noConfusion h
    · have hr : p.transferCookie user other = (((p.find user).1.find other).1, false) := by
        unfold Private.transferCookie
        simp only
        rw [if_neg hkey, if_neg hc]
      rw [hr]
      refine ⟨⟨fun h => Bool.noConfusion h, fun h => absurd (by rw [hu]; exact h) hc⟩,
        fun h => Bool.noConfusion h, fun _ => hs2⟩
  · intro heq
    subst heq
    have hkey : (p.find user).2.m_user = ((p.find user).1.find user).2.m_user := by
      rw [hu, ho]
    have hr : p.transferCookie user user = (((p.find user).1.find user).1, true) := by
      unfold Private.transferCookie
      simp only
      rw [if_pos hkey]
    rw [hr]
    exact ⟨rfl, hs2⟩
  · unfold Private.transferCookie
    simp only
    split
    · exact hj2
    · split
      · simp [Private.put, hj2]
      · exact hj2

/-- C20 (as amended), at an example: in `twoCookies` alice and bob hold one
cookie each and carol has no entry; alice gives her cookie to carol. -/
theorem transferCookie_moves_one_cookie_witness :
    twoCookies.Reachable ∧
    (twoCookies.statsOf "alice").m_cookie.val = 1 ∧
    (twoCookies.statsOf "carol").m_cookie.val = 0 ∧
    (twoCookies.transferCookie "alice" "carol").2 = true ∧
    ((twoCookies.transferCookie "alice" "carol").1.statsOf "alice").m_cookie.val
      = (twoCookies.statsOf "alice").m_cookie.val - 1 ∧
    ((twoCookies.transferCookie "alice" "carol").1.statsOf "carol").m_cookie.val
      = (twoCookies.statsOf "carol").m_cookie.val + 1 ∧
    (twoCookies.transferCookie "alice" "carol").1.m_cookiejar = twoCookies.m_cookiejar :=
  ⟨Private.reachable_applyAll _ Private.init Private.Reachable.init,
    by decide, by decide, by decide,
    (((transferCookie_moves_one_cookie twoCookies "alice" "carol").1
      (by decide) (by decide)).2.1 (by decide)).2.1,
    (((transferCookie_moves_one_cookie twoCookies "alice" "carol").1
      (by decide) (by decide)).2.1 (by decide)).2.2.2.1 (by decide),
    (transferCookie_moves_one_cookie twoCookies "alice" "carol").2.2⟩

end Coffee
/-! ## The `bump` loop in closed form -/

theorem removeAll_append (l1 l2 : List String) (x : String) :
    removeAll (l1 ++ l2) x = removeAll l1 x ++ removeAll l2 x := by
  simp [removeAll, List.filter_append]

theorem bumpQueue_snoc (q users : List String) (u : String) :
    bumpQueue q (users ++ [u]) = u :: removeAll (bumpQueue q users) u := by
  simp [bumpQueue, List.foldl_append]

/-- The `bump` rounds on a queue: the front they build on an empty queue,
followed by the entries of the queue that were not bumped, in their order. -/
theorem bumpQueue_eq (q : List String) (users : List String) :
    bumpQueue q users =
      bumpOrder users ++ q.filter (fun x => decide (x ∉ users)) := by
  induction users using List.reverseRecOn with
  | nil => simp [bumpQueue, bumpOrder]
  | append_singleton us u ih =>
    unfold bumpOrder at ih ⊢
    rw [bumpQueue_snoc, bumpQueue_snoc, ih, removeAll_append, List.cons_append]
    congr 2
    simp only [removeAll, List.filter_filter]
    congr 1
    funext y
    simp only [List.mem_append, List.mem_singleton, not_or, ne_eq, decide_not,
      Bool.decide_and, Bool.and_comm]

theorem mem_bumpOrder (users : List String) (x : String) :
    x ∈ bumpOrder users ↔ x ∈ users := by
  induction users using List.reverseRecOn with
  | nil => simp [bumpOrder, bumpQueue]
  | append_singleton us u ih =>
    unfold bumpOrder at ih ⊢
    rw [bumpQueue_snoc, List.mem_cons, mem_removeAll, ih, List.mem_append,
      List.mem_singleton]
    by_cases h : x = u <;> simp [h]

theorem nodup_bumpOrder (users : List String) : (bumpOrder users).Nodup := by
  induction users using List.reverseRecOn with
  | nil => simp [bumpOrder, bumpQueue]
  | append_singleton us u ih =>
    unfold bumpOrder at ih ⊢
    rw [bumpQueue_snoc]
    exact List.nodup_cons.2 ⟨fun hm => ((mem_removeAll _ _ _).1 hm).2 rfl,
      nodup_removeAll _ _ ih⟩

/-- The head of the front is the user bumped last. -/
theorem head_bumpOrder (users : List String) :
    (bumpOrder users).head? = users.getLast? := by
  induction users using List.reverseRecOn with
  | nil => simp [bumpOrder, bumpQueue]
  | append_singleton us u _ =>
    unfold bumpOrder
    rw [bumpQueue_snoc]
    simp

/-- The `bump` loop, in closed form. -/
theorem bumpLoop_closed (b : Bot) :
    ∀ (args : List String) (acc : Meeting × List Output),
      (args.foldl (bumpArg b) acc).1.m_participants =
        bumpQueue acc.1.m_participants (resolved b args) ∧
      (args.foldl (bumpArg b) acc).1.m_participantsDone =
        acc.1.m_participantsDone \ (resolved b args).toFinset ∧
      (args.foldl (bumpArg b) acc).2 = acc.2 ++ (resolved b args).map bumpNotice := by
  intro args
  induction args with
  | nil => intro acc; simp [resolved, bumpQueue]
  | cons x xs ih =>
    intro acc
    rw [List.foldl_cons]
    obtain ⟨i1, i2, i3⟩ := ih (bumpArg b acc x)
    rw [i1, i2, i3]
    by_cases h : b.userLookup x = ""
    · have hr : resolved b (x :: xs) = resolved b xs := by
        simp [resolved, h]
      simp [bumpArg, h, hr]
    · have hr : resolved b (x :: xs) = b.userLookup x :: resolved b xs := by
        simp [resolved, h]
      rw [hr]
      simp only [bumpArg, ne_eq, h, not_false_eq_true, if_true]
      refine ⟨?_, ?_, ?_⟩
      · simp [bumpQueue]
      · ext y
        simp only [Finset.mem_sdiff, Finset.mem_erase, List.toFinset_cons,
          Finset.mem_insert, not_or]
        tauto
      · simp [bumpNotice]

/-- C21. An authorized `bump` command in phase `RollCall` or `InProgress`,
whoever the bumped users are (the chair and the current speaker included).
With `users` the users the arguments resolve to, in argument order: the queue
afterwards is the front `bumpOrder users` followed by the old queue, in its
old order, without these users; the front holds exactly these users, each
once, and its head is the user named last; the done set has lost these users;
one announcement is sent per argument that resolves; no other field changes.
So every user some argument resolves to is absent from the done set and
occurs exactly once in the queue, and a list without a resolvable argument
changes and sends nothing. -/
theorem bump_moves_resolved_to_front (b : Bot) (s : Meeting) (cmd : CommandArgs)
    (hc : cmd.command = "bump")
    (hphase : s.m_state = State.RollCall ∨ s.m_state = State.InProgress)
    (hauth : authorized b s cmd) :
    (handleCommand b s cmd).1 =
      { s with
          m_participants :=
            bumpOrder (resolved b cmd.args) ++
              s.m_participants.filter (fun x => decide (x ∉ resolved b cmd.args))
          m_participantsDone := s.m_participantsDone \ (resolved b cmd.args).toFinset } ∧
    (handleCommand b s cmd).2 = (resolved b cmd.args).map bumpNotice ∧
    ((bumpOrder (resolved b cmd.args)).Nodup ∧
      (∀ x, x ∈ bumpOrder (resolved b cmd.args) ↔ x ∈ resolved b cmd.args) ∧
      (bumpOrder (resolved b cmd.args)).head? = (resolved b cmd.args).getLast?) ∧
    (∀ u ∈ cmd.args, ∀ user, resolvesTo b u user →
      user ∉ (handleCommand b s cmd).1.m_participantsDone ∧
      (handleCommand b s cmd).1.m_participants.count user = 1) ∧
    ((∀ u ∈ cmd.args, b.userLookup u = "") → handleCommand b s cmd = (s, [])) := by
  have hcmd : handleCommand b s cmd = cmd.args.foldl (bumpArg b) (s, []) := by
    rw [handleCommand_bump b s cmd hc]
    unfold cmdBump
    rw [if_neg (not_not.2 hphase), if_pos hauth]
  obtain ⟨k1, k2, k3⟩ := bumpLoop_closed b cmd.args (s, [])
  obtain ⟨f1, f2, f3, f4, f5⟩ := bumpLoop_frame b cmd.args (s, [])
  rw [bumpQueue_eq] at k1
  have hstate : (handleCommand b s cmd).1 =
      { s with
          m_participants :=
            bumpOrder (resolved b cmd.args) ++
              s.m_participants.filter (fun x => decide (x ∉ resolved b cmd.args))
          m_participantsDone := s.m_participantsDone \ (resolved b cmd.args).toFinset } := by
    rw [hcmd]
    cases hr : (cmd.args.foldl (bumpArg b) (s, [])).1
    rw [hr] at k1 k2 f1 f2 f3 f4 f5
    simp only at k1 k2 f1 f2 f3 f4 f5
    simp [k1, k2, f1, f2, f3, f4, f5]
  have hout : (handleCommand b s cmd).2 = (resolved b cmd.args).map bumpNotice := by
    rw [hcmd, k3]; rfl
  refine ⟨hstate, hout,
    ⟨nodup_bumpOrder _, mem_bumpOrder _, head_bumpOrder _⟩, ?_, ?_⟩
  · intro u hu user hres
    have hmem : user ∈ resolved b cmd.args := by
      unfold resolved
      rw [List.mem_filter]
      exact ⟨List.mem_map.2 ⟨u, hu, hres.1⟩, by simpa using hres.2⟩
    rw [hstate]
    constructor
    · intro hm
      exact (Finset.mem_sdiff.1 hm).2 (List.mem_toFinset.2 hmem)
    · show List.count user (bumpOrder (resolved b cmd.args) ++
        s.m_participants.filter (fun x => decide (x ∉ resolved b cmd.args))) = 1
      rw [List.count_append,
        List.count_eq_one_of_mem (nodup_bumpOrder _) ((mem_bumpOrder _ _).2 hmem),
        List.count_eq_zero_of_not_mem]
      intro hm
      have := (List.mem_filter.1 hm).2
      simp at this
      exact this hmem
  · intro hall
    have hnil : resolved b cmd.args = [] := by
      unfold resolved
      rw [List.filter_eq_nil_iff]
      intro a ha
      obtain ⟨u, hu, rfl⟩ := List.mem_map.1 ha
      simp [hall u hu]
    apply Prod.ext
    · rw [hstate, hnil]
      simp [bumpOrder, bumpQueue]
    · rw [hout, hnil]
      rfl

/-- C21, at an example: in `threeInTurns` (current speaker bob, queue carol,
alice, chair alice) alice bumps with the arguments alice, nobody, bob, alice;
the queue afterwards is alice, bob, carol. -/
theorem bump_moves_resolved_to_front_witness :
    resolved roomBot ["alice", "nobody", "bob", "alice"] = ["alice", "bob", "alice"] ∧
    bumpOrder ["alice", "bob", "alice"] = ["alice", "bob"] ∧
    threeInTurns.m_current = "bob" ∧
    threeInTurns.m_chair = "alice" ∧
    (handleCommand roomBot threeInTurns
      (cmdOf "alice" "bump" ["alice", "nobody", "bob", "alice"])).1.m_participants
      = ["alice", "bob", "carol"] ∧
    ((handleCommand roomBot threeInTurns
        (cmdOf "alice" "bump" ["alice", "nobody", "bob", "alice"])).1 =
      { threeInTurns with
          m_participants :=
            bumpOrder (resolved roomBot
                (cmdOf "alice" "bump" ["alice", "nobody", "bob", "alice"]).args) ++
              threeInTurns.m_participants.filter
                (fun x => decide (x ∉ resolved roomBot
                  (cmdOf "alice" "bump" ["alice", "nobody", "bob", "alice"]).args))
          m_participantsDone :=
            threeInTurns.m_participantsDone \
              (resolved roomBot
                (cmdOf "alice" "bump" ["alice", "nobody", "bob", "alice"]).args).toFinset } ∧
    (handleCommand roomBot threeInTurns
        (cmdOf "alice" "bump" ["alice", "nobody", "bob", "alice"])).2 =
      (resolved roomBot
        (cmdOf "alice" "bump" ["alice", "nobody", "bob", "alice"]).args).map bumpNotice ∧
    ((bumpOrder (resolved roomBot
          (cmdOf "alice" "bump" ["alice", "nobody", "bob", "alice"]).args)).Nodup ∧
      (∀ x, x ∈ bumpOrder (resolved roomBot
          (cmdOf "alice" "bump" ["alice", "nobody", "bob", "alice"]).args) ↔
        x ∈ resolved roomBot
          (cmdOf "alice" "bump" ["alice", "nobody", "bob", "alice"]).args) ∧
      (bumpOrder (resolved roomBot
          (cmdOf "alice" "bump" ["alice", "nobody", "bob", "alice"]).args)).head? =
        (resolved roomBot
          (cmdOf "alice" "bump" ["alice", "nobody", "bob", "alice"]).args).getLast?) ∧
    (∀ u ∈ (cmdOf "alice" "bump" ["alice", "nobody", "bob", "alice"]).args,
      ∀ user, resolvesTo roomBot u user →
      user ∉ (handleCommand roomBot threeInTurns
        (cmdOf "alice" "bump" ["alice", "nobody", "bob", "alice"])).1.m_participantsDone ∧
      (handleCommand roomBot threeInTurns
        (cmdOf "alice" "bump"
          ["alice", "nobody", "bob", "alice"])).1.m_participants.count user = 1) ∧
    ((∀ u ∈ (cmdOf "alice" "bump" ["alice", "nobody", "bob", "alice"]).args,
        roomBot.userLookup u = "") →
      handleCommand roomBot threeInTurns
        (cmdOf "alice" "bump" ["alice", "nobody", "bob", "alice"]) = (threeInTurns, []))) :=
  ⟨by decide, by decide, by decide, by decide, by decide,
    bump_moves_resolved_to_front roomBot threeInTurns
      (cmdOf "alice" "bump" ["alice", "nobody", "bob", "alice"])
      (by decide) (by decide) (by decide)⟩

/-! ## Breakouts at the end of the meeting -/

/-- The field `m_breakouts` holds the notes registered since the last
effective rollcall. -/
theorem breakouts_eq_notes (s : Meeting) (notes : List String)
    (hr : ReachableWithNotes s notes) : s.m_breakouts = notes := by
  induction hr with
  | init => rfl
  | step b s e notes _ ih =>
    cases e with
    | command cmd =>
      show (handleCommand b s cmd).1.m_breakouts = notesAfter s notes (Event.command cmd)
      unfold notesAfter
      by_cases hroll : cmd.command = "rollcall"
      · rw [handleCommand_rollcall b s cmd hroll, cmdRollcall_state]
        by_cases hs : s.m_state = State.None
        · simp [hroll, hs]
        · simp [hroll, hs, ih]
      · by_cases hbr : cmd.command = "breakout"
        · rw [handleCommand_breakout b s cmd hbr, cmdBreakout_state]
          by_cases hs : s.m_state = State.InProgress
          · simp [hbr, hs, ih]
          · simp [hbr, hs, ih]
        · simp only [hroll, hbr, false_and, if_false]
          rw [← ih]
          refine handleCommand_state_cases (fun r => r.m_breakouts = s.m_breakouts)
            b s cmd rfl (fun h => absurd h hroll) ?_ ?_ ?_ (fun h => absurd h hbr) ?_
          · intro _
            exact cmdNext_state_cases (fun r => r.m_breakouts = s.m_breakouts) b s cmd rfl
              (fun _ _ => rfl) (fun _ _ _ _ => rfl)
          · intro _
            exact cmdSkip_state_cases (fun r => r.m_breakouts = s.m_breakouts) b s cmd rfl
              (fun _ _ => (skipLoop_frame b cmd.args (s, [])).2.2.2.1)
          · intro _
            exact cmdBump_state_cases (fun r => r.m_breakouts = s.m_breakouts) b s cmd rfl
              (fun _ _ => (bumpLoop_frame b cmd.args (s, [])).2.2.2.1)
          · intro _
            rw [cmdDone_state]
            split <;> rfl
    | message sender =>
      show (handleMessage s sender).m_breakouts = notes
      rw [(handleMessage_frame s sender).2.2.2.1, ih]
    | timerExpiry =>
      rw [step_timerExpiry_frame]
      exact ih

/-- A run with its notes leads from a reachable state with its notes to a
reachable state with its notes. -/
theorem reachableWithNotes_run (b : Bot) (es : List Event) :
    ∀ (sn : Meeting × List String), ReachableWithNotes sn.1 sn.2 →
      ReachableWithNotes (runWithNotes b sn es).1 (runWithNotes b sn es).2 := by
  induction es with
  | nil => intro sn h; exact h
  | cons e es ih =>
    intro sn h
    exact ih ((step b sn.1 e).1, notesAfter sn.1 sn.2 e)
      (ReachableWithNotes.step b sn.1 e sn.2 h)

/-- C22. Whenever a `next` command moves the phase from `InProgress` to
`None`, it sends the short status line and then one line `Breakout: <note>`
for every note registered since the last effective rollcall, each once, in
the order of registration, and no such line when there is no such note; the
only other output is the switch of the log watcher. -/
theorem closing_next_announces_breakouts (s : Meeting) (notes : List String)
    (hr : ReachableWithNotes s notes) (b : Bot) (cmd : CommandArgs)
    (hc : cmd.command = "next") (hs : s.m_state = State.InProgress)
    (hend : (handleCommand b s cmd).1.m_state = State.None) :
    s.m_breakouts = notes ∧
    (handleCommand b s cmd).2 =
      Output.text "No meeting in progress." ::
        (notes.map (fun n => Output.text ("Breakout: " ++ n)) ++
          enableLogging b cmd false) := by
  have hb := breakouts_eq_notes s notes hr
  refine ⟨hb, ?_⟩
  rw [handleCommand_next b s cmd hc] at hend ⊢
  by_cases hauth : authorized b s cmd
  · cases hp : s.m_participants with
    | nil =>
      unfold cmdNext
      rw [if_neg (not_not.2 (Or.inr hs)), if_pos hauth]
      simp [doNext, hs, hp, shortStatus, hb]
    | cons h t =>
      rw [cmdNext_state b s cmd (Or.inr hs) hauth, hp] at hend
      exact State.noConfusion hend
  · rw [cmdNext_noop b s cmd (Or.inr hauth), hs] at hend
    exact State.noConfusion hend

/-- C22, at an example: the `next` of bob that ends the second meeting of
`secondMeeting` announces the two breakouts of that meeting and not the one
of the meeting before. -/
theorem closing_next_announces_breakouts_witness :
    secondMeeting.2 = ["budget", "room two"] ∧
    (handleCommand roomBot secondMeeting.1 (cmdOf "bob" "next" [])).2 =
      [Output.text "No meeting in progress.", Output.text "Breakout: budget",
        Output.text "Breakout: room two"] ∧
    (secondMeeting.1.m_breakouts = secondMeeting.2 ∧
      (handleCommand roomBot secondMeeting.1 (cmdOf "bob" "next" [])).2 =
        Output.text "No meeting in progress." ::
          (secondMeeting.2.map (fun n => Output.text ("Breakout: " ++ n)) ++
            enableLogging roomBot (cmdOf "bob" "next" []) false)) :=
  ⟨by decide, by decide,
    closing_next_announces_breakouts secondMeeting.1 secondMeeting.2
      (reachableWithNotes_run roomBot _ (Meeting.init, []) ReachableWithNotes.init)
      roomBot (cmdOf "bob" "next" []) (by decide) (by decide) (by decide)⟩

/-! ## The reminder timer -/

/-- C23 fails as stated: in `endedByDone` the phase is `None` and alice, the
chair of the ended meeting, is still pending; her `next` command is
authorized and leaves the queue non-empty, yet the timer is not started. -/
theorem next_in_phase_None_arms_nothing :
    Reachable endedByDone ∧
    endedByDone.m_state = State.None ∧
    authorized roomBot endedByDone (cmdOf "alice" "next" []) ∧
    (handleCommand roomBot endedByDone (cmdOf "alice" "next" [])).1.m_participants
      = ["alice"] ∧
    (handleCommand roomBot endedByDone (cmdOf "alice" "next" [])).1.m_waiting = none ∧
    (handleCommand roomBot endedByDone (cmdOf "alice" "next" [])).1.m_waiting
      ≠ some 30000 :=
  ⟨reachableFromBy_run _ roomBot Meeting.init _ _ (reachable_run roomBot _)
      ⟨trivial, trivial⟩,
    by decide, by decide, by decide, by decide, by decide⟩

/-- C23 (as amended). Reminder arming: a `rollcall` received in phase `None`
leaves the timer started with one minute (60000 ms), and an authorized `next`
received in phase `RollCall` or `InProgress` after which the queue is not
empty leaves it started with half a minute (30000 ms); in both cases whatever
the timer was before, there being one timer only. -/
theorem reminder_arming (b : Bot) (s : Meeting) (cmd : CommandArgs) :
    (cmd.command = "rollcall" → s.m_state = State.None →
      (handleCommand b s cmd).1.m_waiting = some 60000) ∧
    (cmd.command = "next" →
      (s.m_state = State.RollCall ∨ s.m_state = State.InProgress) →
      authorized b s cmd →
      (handleCommand b s cmd).1.m_participants ≠ [] →
      (handleCommand b s cmd).1.m_waiting = some 30000) := by
  constructor
  · intro hc hs
    rw [handleCommand_rollcall b s cmd hc, cmdRollcall_state, if_pos hs]
  · intro hc hphase hauth hne
    rw [handleCommand_next b s cmd hc, cmdNext_state b s cmd hphase hauth] at hne ⊢
    cases hp : s.m_participants with
    | nil =>
      rw [hp] at hne
      exact absurd rfl hne
    | cons h t => rfl

/-- C23 (as amended), at examples: bob calls the roll in `endedByDone`, and
alice gives the first turn in `rollCalled`, where alice stays pending. -/
theorem reminder_arming_witness :
    endedByDone.m_state = State.None ∧
    (handleCommand roomBot rollCalled (cmdOf "alice" "next" [])).1.m_participants
      = ["alice"] ∧
    (handleCommand roomBot endedByDone (cmdOf "bob" "rollcall" [])).1.m_waiting
      = some 60000 ∧
    (handleCommand roomBot rollCalled (cmdOf "alice" "next" [])).1.m_waiting
      = some 30000 :=
  ⟨by decide, by decide,
    (reminder_arming roomBot endedByDone (cmdOf "bob" "rollcall" [])).1
      (by decide) (by decide),
    (reminder_arming roomBot rollCalled (cmdOf "alice" "next" [])).2
      (by decide) (by decide) (by decide) (by decide)⟩

/-- C24. Chat activity stops the timer exactly when the phase is `InProgress`
and the sender is the current speaker; for every other phase or sender the
timer is left as it was, also during the roll call. -/
theorem handleMessage_timer (s : Meeting) (sender : String) :
    (handleMessage s sender).m_waiting =
      if s.m_state = State.InProgress ∧ sender = s.m_current then none
      else s.m_waiting := by
  unfold handleMessage
  simp only
  split <;> split <;> simp_all

/-- Every event keeps the timer off in phase `None`. -/
theorem timerOff_step (b : Bot) (s : Meeting) (e : Event)
    (H : s.m_state = State.None → s.m_waiting = none) :
    (step b s e).1.m_state = State.None → (step b s e).1.m_waiting = none := by
  cases e with
  | command cmd =>
    show (handleCommand b s cmd).1.m_state = State.None →
      (handleCommand b s cmd).1.m_waiting = none
    refine handleCommand_state_cases (fun r => r.m_state = State.None → r.m_waiting = none)
      b s cmd H ?_ ?_ ?_ ?_ ?_ ?_
    · intro _
      rw [cmdRollcall_state]
      split
      · intro h; exact State.noConfusion h
      · exact H
    · intro _
      refine cmdNext_state_cases (fun r => r.m_state = State.None → r.m_waiting = none)
        b s cmd H ?_ ?_
      · intro _ _ _; rfl
      · intro h t _ _ hn; exact State.noConfusion hn
    · intro _
      refine cmdSkip_state_cases (fun r => r.m_state = State.None → r.m_waiting = none)
        b s cmd H ?_
      intro hne _ hn
      rw [(skipLoop_frame b cmd.args (s, [])).1] at hn
      exact absurd hn hne
    · intro _
      refine cmdBump_state_cases (fun r => r.m_state = State.None → r.m_waiting = none)
        b s cmd H ?_
      intro hne _ hn
      rw [(bumpLoop_frame b cmd.args (s, [])).1] at hn
      exact absurd hn hne
    · intro _
      rw [cmdBreakout_state]
      split <;> exact H
    · intro _
      rw [cmdDone_state]
      split
      · intro _; rfl
      · exact H
  | message sender =>
    show (handleMessage s sender).m_state = State.None →
      (handleMessage s sender).m_waiting = none
    rw [handleMessage_timer, (handleMessage_frame s sender).1]
    intro hn
    simp [hn, H hn]
  | timerExpiry =>
    rw [step_timerExpiry_frame]
    intro _; rfl

/-- C25. In every reachable state of the meeting with phase `None` the timer
is off, so that the expiry of the timer is not an event that happens there:
it sends nothing and changes nothing. -/
theorem no_reminder_without_meeting (s : Meeting) (hr : Reachable s)
    (hs : s.m_state = State.None) :
    s.m_waiting = none ∧ ∀ b : Bot, step b s Event.timerExpiry = (s, []) := by
  have hw : s.m_state = State.None → s.m_waiting = none := by
    clear hs
    induction hr with
    | start => intro _; rfl
    | step b s e _ _ ih => exact timerOff_step b s e ih
  refine ⟨hw hs, fun b => ?_⟩
  unfold step
  rw [hw hs]

/-- C25, at examples: the states `endedByNext` and `endedByDone`. -/
theorem no_reminder_without_meeting_witness :
    (endedByNext.m_waiting = none ∧
      ∀ b : Bot, step b endedByNext Event.timerExpiry = (endedByNext, [])) ∧
    endedByDone.m_waiting = none :=
  ⟨no_reminder_without_meeting endedByNext
      (reachableFromBy_run _ roomBot Meeting.init _ _ (reachable_run roomBot _)
        ⟨trivial, trivial, trivial⟩)
      (by decide),
    by decide⟩

/-! ## Cookie conservation -/

namespace Coffee

/-- A sum over the entries, split into the entry of the key `k` and the
rest. -/
theorem sum_split_key (f : CoffeeStats → Int) (k : String) :
    ∀ l : List (Sigma (fun _ : String => CoffeeStats)),
      (l.map (fun e => f e.2)).sum =
        ((List.dlookup k l).map f).getD 0 +
          ((List.kerase k l).map (fun e => f e.2)).sum := by
  intro l
  induction l with
  | nil => simp
  | cons e t ih =>
    obtain ⟨k1, v1⟩ := e
    by_cases h : k = k1
    · subst h
      simp [List.dlookup_cons_eq, List.kerase_cons_eq]
    · have h1 : k1 ≠ k := fun h2 => h h2.symm
      rw [List.dlookup_cons_ne _ _ h, List.kerase_cons_ne h, List.map_cons, List.sum_cons,
        List.map_cons, List.sum_cons, ih]
      ring

/-- Filing counters for a user changes a sum by the difference between the
new and the old counter of that user, for a counter that is zero in fresh
counters. -/
theorem Private.sumOf_put (f : CoffeeStats → Int) (hf : ∀ u, f (CoffeeStats.new u) = 0)
    (p : Private) (user : String) (c : CoffeeStats) :
    (p.put user c).sumOf f = p.sumOf f - f (p.statsOf user) + f c := by
  unfold Private.sumOf Private.put Private.statsOf
  simp only [AList.insert_entries, List.map_cons, List.sum_cons]
  rw [sum_split_key f user p.m_stats.entries]
  have hl : List.dlookup user p.m_stats.entries = p.m_stats.lookup user := rfl
  rw [hl]
  cases h : p.m_stats.lookup user with
  | none => simp [hf]; ring
  | some v => simp; ring

/-- The call `find` changes no sum of such a counter. -/
theorem Private.sumOf_find (f : CoffeeStats → Int) (hf : ∀ u, f (CoffeeStats.new u) = 0)
    (p : Private) (user : String) : (p.find user).1.sumOf f = p.sumOf f := by
  unfold Private.find
  cases h : p.m_stats.lookup user with
  | some c => rfl
  | none =>
    show (p.put user (CoffeeStats.new user)).sumOf f = p.sumOf f
    rw [Private.sumOf_put f hf, hf]
    have : p.statsOf user = CoffeeStats.new user := by
      simp [Private.statsOf, h]
    rw [this, hf]
    ring

theorem Private.total_put (p : Private) (user : String) (c : CoffeeStats) :
    (p.put user c).total =
      p.total - (p.statsOf user).m_cookie.val - (p.statsOf user).m_cookieEated.val +
        c.m_cookie.val + c.m_cookieEated.val := by
  unfold Private.total Private.held Private.eaten
  rw [Private.sumOf_put _ (fun _ => rfl), Private.sumOf_put _ (fun _ => rfl), Private.put_jar]
  ring

theorem Private.total_find (p : Private) (user : String) :
    (p.find user).1.total = p.total := by
  unfold Private.total Private.held Private.eaten
  rw [Private.sumOf_find _ (fun _ => rfl), Private.sumOf_find _ (fun _ => rfl),
    Private.find_jar]

theorem Private.find_fst_statsOf (p : Private) (user : String) :
    (p.find user).1.statsOf user = (p.find user).2 := by
  rw [Private.find_statsOf, Private.find_snd]

/-- The total after `giveCookie`, with the counter of the user gone through
`++`. -/
theorem Private.total_giveCookie (p : Private) (user : String)
    (hb : 0 < p.m_cookiejar.val → (p.statsOf user).m_cookie.val < 2147483647) :
    (p.giveCookie user).1.total = p.total := by
  unfold Private.giveCookie
  split
  · rename_i hj
    simp only
    rw [Private.total_put]
    have h1 : ({ (p.find user).1 with
        m_cookiejar := (p.find user).1.m_cookiejar.pred } : Private).statsOf user
        = p.statsOf user := by
      rw [← Private.find_snd p user]
      exact Private.find_fst_statsOf p user
    have h2 : ({ (p.find user).1 with
        m_cookiejar := (p.find user).1.m_cookiejar.pred } : Private).total
        = p.total - 1 := by
      rw [← Private.total_find p user]
      unfold Private.total Private.held Private.eaten Private.sumOf
      simp only
      rw [CInt.pred_val _ (by rw [Private.find_jar]; omega)]
      ring
    rw [h1, h2, Private.find_snd]
    simp only
    rw [CInt.succ_val _ (hb hj)]
    ring
  · rfl

theorem Private.total_transferCookie (p : Private) (user other : String)
    (hb : user ≠ other → 0 < (p.statsOf user).m_cookie.val →
      (p.statsOf other).m_cookie.val < 2147483647) :
    (p.transferCookie user other).1.total = p.total := by
  have ht2 : ((p.find user).1.find other).1.total = p.total := by
    rw [Private.total_find, Private.total_find]
  unfold Private.transferCookie
  simp only
  split
  · exact ht2
  · rename_i hkey
    have hne : user ≠ other := by
      intro he
      apply hkey
      rw [← he, Private.find_snd (p.find user).1 user, Private.find_statsOf,
        Private.find_snd]
    split
    · rename_i hc
      rw [Private.find_snd] at hc
      rw [Private.total_put, Private.total_put, ht2,
        Private.put_statsOf_ne _ user other _ hne.symm, Private.find_fst_statsOf,
        Private.find_statsOf, Private.find_fst_statsOf, Private.find_snd,
        Private.find_snd, Private.find_statsOf]
      simp only
      rw [CInt.succ_val _ (hb hne hc), CInt.pred_val _ (by omega)]
      ring
    · exact ht2

theorem Private.total_eatCookie (p : Private) (user : String)
    (hb : 0 < (p.statsOf user).m_cookie.val →
      (p.statsOf user).m_cookieEated.val < 2147483647) :
    (p.eatCookie user).1.total = p.total := by
  unfold Private.eatCookie
  simp only
  split
  · rename_i hc
    rw [Private.find_snd] at hc
    rw [Private.total_put, Private.total_find, Private.find_fst_statsOf, Private.find_snd]
    simp only
    rw [CInt.succ_val _ (hb hc), CInt.pred_val _ (by omega)]
    ring
  · exact Private.total_find p user

theorem Private.total_coffee (p : Private) (user : String) :
    (p.coffee user).1.total = p.total := by
  unfold Private.coffee
  simp only
  rw [Private.total_put, Private.total_find, Private.find_fst_statsOf]
  simp only
  ring

theorem Private.total_tea (p : Private) (user : String) :
    (p.tea user).1.total = p.total := by
  unfold Private.tea
  simp only
  rw [Private.total_put, Private.total_find, Private.find_fst_statsOf]
  simp only
  ring

/-- C26 fails as stated: in `fullHands` alice holds 2147483647 cookies, the
largest `int`; `giveCookie` takes a cookie from the jar and her counter wraps
to -2147483648, so that the total drops by 4294967296.  In `bigEater`, where
alice has eaten 2147483647 cookies, `eatCookie` does the same to the counter
of the eaten cookies, and in `richBob`, where bob holds 2147483647 cookies,
`transferCookie` from alice to bob does the same to the counter of bob. -/
theorem full_counter_breaks_conservation :
    (fullHands.Reachable ∧
      fullHands.total = 2147483659 ∧
      (fullHands.giveCookie "alice").2 = true ∧
      (fullHands.giveCookie "alice").1.total = -2147483637 ∧
      (fullHands.giveCookie "alice").1.total ≠ fullHands.total) ∧
    (bigEater.Reachable ∧
      bigEater.total = 2147483660 ∧
      (bigEater.eatCookie "alice").2 = true ∧
      (bigEater.eatCookie "alice").1.total = -2147483636 ∧
      (bigEater.eatCookie "alice").1.total ≠ bigEater.total) ∧
    (richBob.Reachable ∧
      richBob.total = 2147483659 ∧
      (richBob.transferCookie "alice" "bob").2 = true ∧
      (richBob.transferCookie "alice" "bob").1.total = -2147483637 ∧
      (richBob.transferCookie "alice" "bob").1.total ≠ richBob.total) :=
  ⟨⟨Private.reachable_applyAll _ Private.init Private.Reachable.init,
      by decide, by decide, by decide, by decide⟩,
    ⟨Private.reachable_applyAll _ Private.init Private.Reachable.init,
      by decide, by decide, by decide, by decide⟩,
    ⟨Private.reachable_applyAll _ Private.init Private.Reachable.init,
      by decide, by decide, by decide, by decide⟩⟩

/-- C26 (as amended). Cookie conservation.  For every ledger, the total of
the cookies in the jar, the cookies held by the users and the cookies eaten
by the users is the same before and after every call of `coffee` and `tea`,
and before and after every call of `giveCookie`, `transferCookie` and
`eatCookie` that does not raise a counter standing at 2147483647:
`giveCookie` raises the cookies held by the user when the jar is not empty,
`transferCookie` raises the cookies held by `other` when `user ≠ other` and
`user` holds a cookie, `eatCookie` raises the cookies eaten by the user when
the user holds a cookie.  The refill `addCookie` raises the jar, and with it
the total, by one when the jar holds fewer than 12 cookies, and leaves the
ledger as it is otherwise. -/
theorem cookie_conservation (p : Private) :
    (∀ user, (0 < p.m_cookiejar.val → (p.statsOf user).m_cookie.val < 2147483647) →
      (p.giveCookie user).1.total = p.total) ∧
    (∀ user other,
      (user ≠ other → 0 < (p.statsOf user).m_cookie.val →
        (p.statsOf other).m_cookie.val < 2147483647) →
      (p.transferCookie user other).1.total = p.total) ∧
    (∀ user,
      (0 < (p.statsOf user).m_cookie.val →
        (p.statsOf user).m_cookieEated.val < 2147483647) →
      (p.eatCookie user).1.total = p.total) ∧
    (∀ user, (p.coffee user).1.total = p.total) ∧
    (∀ user, (p.tea user).1.total = p.total) ∧
    (p.m_cookiejar.val < 12 →
      p.addCookie.m_cookiejar.val = p.m_cookiejar.val + 1 ∧
      p.addCookie.m_stats = p.m_stats ∧
      p.addCookie.total = p.total + 1) ∧
    (¬ p.m_cookiejar.val < 12 → p.addCookie = p) := by
  refine ⟨Private.total_giveCookie p, Private.total_transferCookie p,
    Private.total_eatCookie p, Private.total_coffee p, Private.total_tea p, ?_, ?_⟩
  · intro h
    have hv : p.m_cookiejar.succ.val = p.m_cookiejar.val + 1 :=
      CInt.succ_val _ (by omega)
    unfold Private.addCookie
    rw [if_pos h]
    refine ⟨hv, rfl, ?_⟩
    unfold Private.total Private.held Private.eaten Private.sumOf
    simp only
    rw [hv]
    ring
  · intro h
    unfold Private.addCookie
    rw [if_neg h]

/-- C26 (as amended), at examples: in `twoCookies`, where two cookies have
left the jar, the total is 12 before and after alice eats her cookie, gives
it to bob, or takes another one from the jar; the refill makes it 13. -/
theorem cookie_conservation_witness :
    Private.init.total = 12 ∧
    twoCookies.m_cookiejar.val = 10 ∧ twoCookies.held = 2 ∧ twoCookies.total = 12 ∧
    (twoCookies.giveCookie "alice").1.total = twoCookies.total ∧
    (twoCookies.transferCookie "alice" "bob").1.total = twoCookies.total ∧
    (twoCookies.eatCookie "alice").1.total = twoCookies.total ∧
    twoCookies.addCookie.total = twoCookies.total + 1 :=
  ⟨by decide, by decide, by decide, by decide,
    (cookie_conservation twoCookies).1 "alice" (fun _ => by decide),
    (cookie_conservation twoCookies).2.1 "alice" "bob" (fun _ _ => by decide),
    (cookie_conservation twoCookies).2.2.1 "alice" (fun _ => by decide),
    ((cookie_conservation twoCookies).2.2.2.2.2.1 (by decide)).2.2⟩

end Coffee
end QuatBot
